import Mathlib

/-!
Verification development for the 2D Abelian sandpile relaxation codes
(serial, OpenMP shared-memory, and MPI distributed variants).

A grid buffer is embedded as a flat function `ℕ → ℕ` (the C code uses a
flat `int *` indexed by `y * cols + x`; all values reachable from the
non-negative seeds stay non-negative, where C `/` and `%` agree with the
`Nat` operations).  Stateful loops become explicit folds / recursions.
-/

/-- A flat grid buffer (the C `int *` arrays, row-major). -/
abbrev Buf : Type := ℕ → ℕ

/-- Writing a single array slot (`next[idx] = v`). -/
def writeCell (b : Buf) (i v : ℕ) : Buf := fun j => if j = i then v else b j

/-- The value `sync_compute_new_state` stores into `next[idx]`:
`sand[idx] % 4 + sand[idx-1]/4 + sand[idx+1]/4 + sand[idx-cols]/4 + sand[idx+cols]/4`. -/
def cellVal (sand : Buf) (cols i : ℕ) : ℕ :=
  sand i % 4 + sand (i - 1) / 4 + sand (i + 1) / 4 + sand (i - cols) / 4 + sand (i + cols) / 4

/-- Embedding of `sync_compute_new_state(sand, next, cols, y, x)` (identical in
all source variants): writes the new value of cell `(y, x)` into `next` and
returns the written buffer together with the changed flag `next[idx] != sand[idx]`. -/
def sync_compute_new_state (sand next : Buf) (cols y x : ℕ) : Buf × Bool :=
  (writeCell next (y * cols + x) (cellVal sand cols (y * cols + x)),
   decide (cellVal sand cols (y * cols + x) ≠ sand (y * cols + x)))

/-- One iteration of the sweep loop body:
`changed |= sync_compute_new_state(sand, next, cols, y, x)`. -/
def sweepCell (sand : Buf) (cols : ℕ) (st : Buf × Bool) (p : ℕ × ℕ) : Buf × Bool :=
  ((sync_compute_new_state sand st.1 cols p.1 p.2).1,
   st.2 || (sync_compute_new_state sand st.1 cols p.1 p.2).2)

/-- The interior cell coordinates visited by the double loop
`for (y = 1; y <= h; y++) for (x = 1; x <= w; x++)`. -/
def interiorCells (h w : ℕ) : List (ℕ × ℕ) :=
  (List.range' 1 h).flatMap (fun y => (List.range' 1 w).map (fun x => (y, x)))

/-- One full sweep of the relaxation loop over a `h × w` interior with
border columns (the buffers have `w + 2` columns): returns the written
`next` buffer and the accumulated changed flag. -/
def sweepBuf (h w : ℕ) (sand next : Buf) : Buf × Bool :=
  (interiorCells h w).foldl (sweepCell sand (w + 2)) (next, false)

lemma foldl_sweepCell_fst (sand : Buf) (cols : ℕ) (L : List (ℕ × ℕ)) :
    ∀ (st : Buf × Bool) (i : ℕ),
      (L.foldl (sweepCell sand cols) st).1 i =
        if ∃ p ∈ L, p.1 * cols + p.2 = i then cellVal sand cols i else st.1 i := by
  induction L with
  | nil => intro st i; simp
  | cons q L ih =>
      intro st i
      rw [List.foldl_cons, ih]
      have hcons : (∃ p ∈ q :: L, p.1 * cols + p.2 = i) ↔
          (q.1 * cols + q.2 = i ∨ ∃ p ∈ L, p.1 * cols + p.2 = i) := by
        constructor
        · rintro ⟨p, hp, hpi⟩
          rcases List.mem_cons.mp hp with rfl | hp'
          · exact Or.inl hpi
          · exact Or.inr ⟨p, hp', hpi⟩
        · rintro (hq | ⟨p, hp, hpi⟩)
          · exact ⟨q, List.mem_cons_self _ _, hq⟩
          · exact ⟨p, List.mem_cons_of_mem _ hp, hpi⟩
      by_cases hL : ∃ p ∈ L, p.1 * cols + p.2 = i
      · rw [if_pos hL, if_pos (hcons.mpr (Or.inr hL))]
      · by_cases hq : q.1 * cols + q.2 = i
        · rw [if_neg hL, if_pos (hcons.mpr (Or.inl hq))]
          subst hq
          simp [sweepCell, sync_compute_new_state, writeCell]
        · rw [if_neg hL, if_neg (fun hc => (hcons.mp hc).elim hq hL)]
          simp only [sweepCell, sync_compute_new_state, writeCell]
          rw [if_neg (fun h => hq h.symm)]

lemma foldl_sweepCell_snd (sand : Buf) (cols : ℕ) (L : List (ℕ × ℕ)) :
    ∀ (st : Buf × Bool),
      (L.foldl (sweepCell sand cols) st).2 =
        (st.2 || L.any fun p =>
          decide (cellVal sand cols (p.1 * cols + p.2) ≠ sand (p.1 * cols + p.2))) := by
  induction L with
  | nil => intro st; simp
  | cons q L ih =>
      intro st
      rw [List.foldl_cons, ih]
      simp [sweepCell, sync_compute_new_state, Bool.or_assoc]

lemma mem_interiorCells {h w : ℕ} {p : ℕ × ℕ} :
    p ∈ interiorCells h w ↔ 1 ≤ p.1 ∧ p.1 ≤ h ∧ 1 ≤ p.2 ∧ p.2 ≤ w := by
  cases p with
  | mk y x =>
      simp only [interiorCells, List.mem_flatMap, List.mem_map, List.mem_range'_1,
        Prod.mk.injEq]
      constructor
      · rintro ⟨a, ⟨ha1, ha2⟩, b, ⟨hb1, hb2⟩, rfl, rfl⟩
        exact ⟨ha1, by omega, hb1, by omega⟩
      · rintro ⟨h1, h2, h3, h4⟩
        exact ⟨y, ⟨h1, by omega⟩, x, ⟨h3, by omega⟩, rfl, rfl⟩

/-- A flat index `i` addresses an interior cell of the `h × w` grid
(with sink border, `w + 2` columns). -/
def isInterior (h w i : ℕ) : Prop :=
  1 ≤ i / (w + 2) ∧ i / (w + 2) ≤ h ∧ 1 ≤ i % (w + 2) ∧ i % (w + 2) ≤ w

instance isInterior.decidable (h w i : ℕ) : Decidable (isInterior h w i) := by
  unfold isInterior; infer_instance

lemma idx_div {w x : ℕ} (y : ℕ) (hx : x < w + 2) : (y * (w + 2) + x) / (w + 2) = y := by
  rw [Nat.mul_comm, Nat.mul_add_div (by omega), Nat.div_eq_of_lt hx]
  omega

lemma idx_mod {w x : ℕ} (y : ℕ) (hx : x < w + 2) : (y * (w + 2) + x) % (w + 2) = x := by
  rw [Nat.mul_comm, Nat.mul_add_mod, Nat.mod_eq_of_lt hx]

lemma isInterior_idx {h w y x : ℕ} (hy1 : 1 ≤ y) (hy2 : y ≤ h) (hx1 : 1 ≤ x) (hx2 : x ≤ w) :
    isInterior h w (y * (w + 2) + x) := by
  have hd := idx_div (w := w) (x := x) y (by omega)
  have hm := idx_mod (w := w) (x := x) y (by omega)
  exact ⟨by rw [hd]; exact hy1, by rw [hd]; exact hy2,
    by rw [hm]; exact hx1, by rw [hm]; exact hx2⟩

lemma isInterior_elim {h w i : ℕ} (hi : isInterior h w i) :
    ∃ y x, 1 ≤ y ∧ y ≤ h ∧ 1 ≤ x ∧ x ≤ w ∧ i = y * (w + 2) + x := by
  refine ⟨i / (w + 2), i % (w + 2), hi.1, hi.2.1, hi.2.2.1, hi.2.2.2, ?_⟩
  rw [Nat.mul_comm, Nat.div_add_mod]

lemma exists_cell_iff {h w i : ℕ} :
    (∃ p ∈ interiorCells h w, p.1 * (w + 2) + p.2 = i) ↔ isInterior h w i := by
  constructor
  · rintro ⟨p, hp, rfl⟩
    obtain ⟨h1, h2, h3, h4⟩ := mem_interiorCells.mp hp
    exact isInterior_idx h1 h2 h3 h4
  · intro hi
    obtain ⟨y, x, h1, h2, h3, h4, rfl⟩ := isInterior_elim hi
    exact ⟨(y, x), mem_interiorCells.mpr ⟨h1, h2, h3, h4⟩, rfl⟩

lemma sweepBuf_fst (h w : ℕ) (sand next : Buf) (i : ℕ) :
    (sweepBuf h w sand next).1 i =
      if isInterior h w i then cellVal sand (w + 2) i else next i := by
  rw [sweepBuf, foldl_sweepCell_fst]
  by_cases hi : isInterior h w i
  · simp [exists_cell_iff.mpr hi, hi]
  · have : ¬ ∃ p ∈ interiorCells h w, p.1 * (w + 2) + p.2 = i := fun h => hi (exists_cell_iff.mp h)
    simp [this, hi]

lemma sweepBuf_snd_true {h w : ℕ} {sand next : Buf} :
    (sweepBuf h w sand next).2 = true ↔
      ∃ y x, 1 ≤ y ∧ y ≤ h ∧ 1 ≤ x ∧ x ≤ w ∧
        cellVal sand (w + 2) (y * (w + 2) + x) ≠ sand (y * (w + 2) + x) := by
  rw [sweepBuf, foldl_sweepCell_snd]
  simp only [Bool.false_or, List.any_eq_true]
  constructor
  · rintro ⟨p, hp, hd⟩
    obtain ⟨h1, h2, h3, h4⟩ := mem_interiorCells.mp hp
    exact ⟨p.1, p.2, h1, h2, h3, h4, of_decide_eq_true hd⟩
  · rintro ⟨y, x, h1, h2, h3, h4, hne⟩
    exact ⟨(y, x), mem_interiorCells.mpr ⟨h1, h2, h3, h4⟩, decide_eq_true hne⟩

lemma sweepBuf_snd_false {h w : ℕ} {sand next : Buf} :
    (sweepBuf h w sand next).2 = false ↔
      ∀ y x, 1 ≤ y → y ≤ h → 1 ≤ x → x ≤ w →
        cellVal sand (w + 2) (y * (w + 2) + x) = sand (y * (w + 2) + x) := by
  rw [← Bool.not_eq_true, sweepBuf_snd_true]
  constructor
  · intro H y x h1 h2 h3 h4
    by_contra hne
    exact H ⟨y, x, h1, h2, h3, h4, hne⟩
  · rintro H ⟨y, x, h1, h2, h3, h4, hne⟩
    exact hne (H y x h1 h2 h3 h4)

/-- Initial buffer of the relaxation runs: all cells zero (the `calloc` /
zero-initialisation loop), then every interior cell set to the seed value
`s i` (the reference configuration uses `s = fun _ => 4`). -/
def initBuf (h w : ℕ) (s : ℕ → ℕ) : Buf := fun i => if isInterior h w i then s i else 0

/-- State `(sand, next)` of the serial relaxation loop after `n` executed
sweeps, with the buffer swap applied after each sweep (sandpile_serial.c). -/
def serialState (h w : ℕ) (s : ℕ → ℕ) : ℕ → Buf × Buf
  | 0 => (initBuf h w s, fun _ => 0)
  | n + 1 =>
      ((sweepBuf h w (serialState h w s n).1 (serialState h w s n).2).1,
       (serialState h w s n).1)

/-- The changed flag produced by sweep `n` (iteration `n` of the
`while (changed)` loop, counting from 0). -/
def serialChanged (h w : ℕ) (s : ℕ → ℕ) (n : ℕ) : Bool :=
  (sweepBuf h w (serialState h w s n).1 (serialState h w s n).2).2

/-- The OpenMP variant's relaxation loop (sandpile_OpenMP.c) embeds to the
same synchronous state function: its loop nest, update rule, seed and
reduction are identical to the serial ones, and within a sweep every cell
update reads only `sand` and writes only its own `next` slot, so the
parallel schedule computes the same buffers. -/
def ompState (h w : ℕ) (s : ℕ → ℕ) : ℕ → Buf × Buf := serialState h w s

lemma serialState_border (h w : ℕ) (s : ℕ → ℕ) (n : ℕ) :
    ∀ i, ¬ isInterior h w i → (serialState h w s n).1 i = 0 ∧ (serialState h w s n).2 i = 0 := by
  induction n with
  | zero =>
      intro i hi
      constructor
      · show initBuf h w s i = 0
        rw [initBuf, if_neg hi]
      · rfl
  | succ n ih =>
      intro i hi
      refine ⟨?_, ((ih i hi).1)⟩
      show (sweepBuf h w (serialState h w s n).1 (serialState h w s n).2).1 i = 0
      rw [sweepBuf_fst, if_neg hi]
      exact (ih i hi).2

lemma not_isInterior_row0 {h w x : ℕ} (hx : x < w + 2) : ¬ isInterior h w x := by
  intro hi
  have h1 := hi.1
  rw [Nat.div_eq_of_lt hx] at h1
  omega

lemma not_isInterior_at {h w Y X : ℕ} (hX : X < w + 2)
    (hc : Y = 0 ∨ h < Y ∨ X = 0 ∨ w < X) : ¬ isInterior h w (Y * (w + 2) + X) := by
  intro hi
  obtain ⟨h1, h2, h3, h4⟩ := hi
  rw [idx_div Y hX] at h1 h2
  rw [idx_mod Y hX] at h3 h4
  omega

/-- The five reads of `sync_compute_new_state` at an interior index,
with the flat neighbour offsets resolved to row/column coordinates. -/
lemma cellVal_at (b : Buf) (c y x : ℕ) :
    cellVal b c ((y + 1) * c + (x + 1)) =
      b ((y + 1) * c + (x + 1)) % 4 + b ((y + 1) * c + x) / 4 +
        b ((y + 1) * c + (x + 2)) / 4 + b (y * c + (x + 1)) / 4 +
        b ((y + 2) * c + (x + 1)) / 4 := by
  have h1 : (y + 1) * c = y * c + c := by ring
  have h2 : (y + 2) * c = y * c + c + c := by ring
  unfold cellVal
  rw [h1, h2]
  have e1 : y * c + c + (x + 1) - 1 = y * c + c + x := by omega
  have e2 : y * c + c + (x + 1) + 1 = y * c + c + (x + 2) := by omega
  have e3 : y * c + c + (x + 1) - c = y * c + (x + 1) := by omega
  have e4 : y * c + c + (x + 1) + c = y * c + c + c + (x + 1) := by omega
  rw [e1, e2, e3, e4]

/-- Row weight `y * (h + 1 - y)`: a strictly concave bump over `0..h+1`,
vanishing at the border rows `0` and `h+1`. -/
def wtRow (h y : ℕ) : ℕ := y * (h + 1 - y)

/-- Superharmonic cell weight used as a termination potential. -/
def wt (h w y x : ℕ) : ℕ := wtRow h y + wtRow w x

/-- Weighted total grain potential of a buffer over the interior cells. -/
def phi (h w : ℕ) (b : Buf) : ℕ :=
  ∑ y ∈ Finset.range h, ∑ x ∈ Finset.range w,
    wt h w (y + 1) (x + 1) * b ((y + 1) * (w + 2) + (x + 1))

/-- Total number of unit topplings performed by one synchronous sweep of `b`. -/
def topples (h w : ℕ) (b : Buf) : ℕ :=
  ∑ y ∈ Finset.range h, ∑ x ∈ Finset.range w, b ((y + 1) * (w + 2) + (x + 1)) / 4

lemma wtRow_id {h y : ℕ} (hy : y < h) :
    wtRow h y + wtRow h (y + 2) + 2 = 2 * wtRow h (y + 1) := by
  obtain ⟨b, rfl⟩ : ∃ b, h = y + b + 1 := ⟨h - y - 1, by omega⟩
  unfold wtRow
  have e1 : y + b + 1 + 1 - y = b + 2 := by omega
  have e2 : y + b + 1 + 1 - (y + 2) = b := by omega
  have e3 : y + b + 1 + 1 - (y + 1) = b + 1 := by omega
  rw [e1, e2, e3]
  ring

lemma wt_id {h w y x : ℕ} (hy : y < h) (hx : x < w) :
    wt h w y (x + 1) + wt h w (y + 2) (x + 1) + wt h w (y + 1) x +
        wt h w (y + 1) (x + 2) + 4 = 4 * wt h w (y + 1) (x + 1) := by
  have h1 := wtRow_id hy
  have h2 := wtRow_id hx
  unfold wt
  omega

lemma shift_sum_le {n : ℕ} {F G : ℕ → ℕ} (h0 : F 0 = 0) (hFG : ∀ k, F (k + 1) = G k) :
    ∑ k ∈ Finset.range n, F k ≤ ∑ k ∈ Finset.range n, G k := by
  cases n with
  | zero => simp
  | succ m =>
      rw [Finset.sum_range_succ' F, h0, add_zero]
      calc (∑ k ∈ Finset.range m, F (k + 1)) = ∑ k ∈ Finset.range m, G k :=
            Finset.sum_congr rfl fun k _ => hFG k
        _ ≤ ∑ k ∈ Finset.range (m + 1), G k := by
            refine Finset.sum_le_sum_of_subset ?_
            exact Finset.range_subset.mpr (by omega)

lemma shift_sum_le' {n : ℕ} {F G : ℕ → ℕ} (hn : G n = 0) (hFG : ∀ k, F k = G (k + 1)) :
    ∑ k ∈ Finset.range n, F k ≤ ∑ k ∈ Finset.range n, G k := by
  have h1 : (∑ k ∈ Finset.range n, F k) = ∑ k ∈ Finset.range n, G (k + 1) :=
    Finset.sum_congr rfl fun k _ => hFG k
  have h2 : (∑ k ∈ Finset.range n, G (k + 1)) + G 0 = ∑ k ∈ Finset.range (n + 1), G k :=
    (Finset.sum_range_succ' G n).symm
  have h3 : (∑ k ∈ Finset.range (n + 1), G k) = (∑ k ∈ Finset.range n, G k) + G n :=
    Finset.sum_range_succ G n
  omega

lemma up_sum_le (h w : ℕ) (b : Buf) (hb : ∀ i, ¬ isInterior h w i → b i = 0) :
    (∑ y ∈ Finset.range h, ∑ x ∈ Finset.range w,
        wt h w (y + 1) (x + 1) * (b (y * (w + 2) + (x + 1)) / 4))
      ≤ ∑ y ∈ Finset.range h, ∑ x ∈ Finset.range w,
          wt h w (y + 2) (x + 1) * (b ((y + 1) * (w + 2) + (x + 1)) / 4) := by
  refine shift_sum_le ?_ ?_
  · refine Finset.sum_eq_zero fun x hx => ?_
    have hx' := Finset.mem_range.mp hx
    have hz : b (0 * (w + 2) + (x + 1)) = 0 := by
      rw [zero_mul, zero_add]
      exact hb _ (not_isInterior_row0 (by omega))
    rw [hz]
    simp
  · intro k
    refine Finset.sum_congr rfl fun x _ => ?_
    rw [show k + 1 + 1 = k + 2 by omega]

lemma down_sum_le (h w : ℕ) (b : Buf) (hb : ∀ i, ¬ isInterior h w i → b i = 0) :
    (∑ y ∈ Finset.range h, ∑ x ∈ Finset.range w,
        wt h w (y + 1) (x + 1) * (b ((y + 2) * (w + 2) + (x + 1)) / 4))
      ≤ ∑ y ∈ Finset.range h, ∑ x ∈ Finset.range w,
          wt h w y (x + 1) * (b ((y + 1) * (w + 2) + (x + 1)) / 4) := by
  refine shift_sum_le' ?_ ?_
  · refine Finset.sum_eq_zero fun x hx => ?_
    have hx' := Finset.mem_range.mp hx
    have hz : b ((h + 1) * (w + 2) + (x + 1)) = 0 :=
      hb _ (not_isInterior_at (by omega) (by omega))
    rw [hz]
    simp
  · intro k
    refine Finset.sum_congr rfl fun x _ => ?_
    rw [show k + 1 + 1 = k + 2 by omega]

lemma left_sum_le (h w : ℕ) (b : Buf) (hb : ∀ i, ¬ isInterior h w i → b i = 0) :
    (∑ y ∈ Finset.range h, ∑ x ∈ Finset.range w,
        wt h w (y + 1) (x + 1) * (b ((y + 1) * (w + 2) + x) / 4))
      ≤ ∑ y ∈ Finset.range h, ∑ x ∈ Finset.range w,
          wt h w (y + 1) (x + 2) * (b ((y + 1) * (w + 2) + (x + 1)) / 4) := by
  refine Finset.sum_le_sum fun y _ => ?_
  refine shift_sum_le ?_ ?_
  · have hz : b ((y + 1) * (w + 2) + 0) = 0 :=
      hb _ (not_isInterior_at (by omega) (by omega))
    rw [hz]
    simp
  · intro k
    rw [show k + 1 + 1 = k + 2 by omega]

lemma right_sum_le (h w : ℕ) (b : Buf) (hb : ∀ i, ¬ isInterior h w i → b i = 0) :
    (∑ y ∈ Finset.range h, ∑ x ∈ Finset.range w,
        wt h w (y + 1) (x + 1) * (b ((y + 1) * (w + 2) + (x + 2)) / 4))
      ≤ ∑ y ∈ Finset.range h, ∑ x ∈ Finset.range w,
          wt h w (y + 1) x * (b ((y + 1) * (w + 2) + (x + 1)) / 4) := by
  refine Finset.sum_le_sum fun y _ => ?_
  refine shift_sum_le' ?_ ?_
  · have hz : b ((y + 1) * (w + 2) + (w + 1)) = 0 :=
      hb _ (not_isInterior_at (by omega) (by omega))
    rw [hz]
    simp
  · intro k
    rw [show k + 1 + 1 = k + 2 by omega]

lemma phi_split (h w : ℕ) (b : Buf) :
    phi h w b =
      (∑ y ∈ Finset.range h, ∑ x ∈ Finset.range w,
          wt h w (y + 1) (x + 1) * (b ((y + 1) * (w + 2) + (x + 1)) % 4))
        + 4 * ∑ y ∈ Finset.range h, ∑ x ∈ Finset.range w,
            wt h w (y + 1) (x + 1) * (b ((y + 1) * (w + 2) + (x + 1)) / 4) := by
  unfold phi
  rw [Finset.mul_sum, ← Finset.sum_add_distrib]
  refine Finset.sum_congr rfl fun y _ => ?_
  rw [Finset.mul_sum, ← Finset.sum_add_distrib]
  refine Finset.sum_congr rfl fun x _ => ?_
  have hmd : b ((y + 1) * (w + 2) + (x + 1)) =
      b ((y + 1) * (w + 2) + (x + 1)) % 4 + 4 * (b ((y + 1) * (w + 2) + (x + 1)) / 4) := by
    omega
  conv_lhs => rw [hmd]
  ring

lemma sweep_phi_eq (h w : ℕ) (b : Buf) :
    (∑ y ∈ Finset.range h, ∑ x ∈ Finset.range w,
        wt h w (y + 1) (x + 1) * cellVal b (w + 2) ((y + 1) * (w + 2) + (x + 1)))
      = ((((∑ y ∈ Finset.range h, ∑ x ∈ Finset.range w,
            wt h w (y + 1) (x + 1) * (b ((y + 1) * (w + 2) + (x + 1)) % 4))
        + ∑ y ∈ Finset.range h, ∑ x ∈ Finset.range w,
            wt h w (y + 1) (x + 1) * (b ((y + 1) * (w + 2) + x) / 4))
        + ∑ y ∈ Finset.range h, ∑ x ∈ Finset.range w,
            wt h w (y + 1) (x + 1) * (b ((y + 1) * (w + 2) + (x + 2)) / 4))
        + ∑ y ∈ Finset.range h, ∑ x ∈ Finset.range w,
            wt h w (y + 1) (x + 1) * (b (y * (w + 2) + (x + 1)) / 4))
        + ∑ y ∈ Finset.range h, ∑ x ∈ Finset.range w,
            wt h w (y + 1) (x + 1) * (b ((y + 2) * (w + 2) + (x + 1)) / 4) := by
  simp only [← Finset.sum_add_distrib]
  refine Finset.sum_congr rfl fun y _ => Finset.sum_congr rfl fun x _ => ?_
  rw [cellVal_at]
  ring

lemma wt_targets_id (h w : ℕ) (b : Buf) :
    ((((∑ y ∈ Finset.range h, ∑ x ∈ Finset.range w,
          wt h w (y + 2) (x + 1) * (b ((y + 1) * (w + 2) + (x + 1)) / 4))
      + ∑ y ∈ Finset.range h, ∑ x ∈ Finset.range w,
          wt h w y (x + 1) * (b ((y + 1) * (w + 2) + (x + 1)) / 4))
      + ∑ y ∈ Finset.range h, ∑ x ∈ Finset.range w,
          wt h w (y + 1) (x + 2) * (b ((y + 1) * (w + 2) + (x + 1)) / 4))
      + ∑ y ∈ Finset.range h, ∑ x ∈ Finset.range w,
          wt h w (y + 1) x * (b ((y + 1) * (w + 2) + (x + 1)) / 4))
      + 4 * topples h w b
      = 4 * ∑ y ∈ Finset.range h, ∑ x ∈ Finset.range w,
          wt h w (y + 1) (x + 1) * (b ((y + 1) * (w + 2) + (x + 1)) / 4) := by
  unfold topples
  simp only [Finset.mul_sum]
  simp only [← Finset.sum_add_distrib]
  refine Finset.sum_congr rfl fun y hy => Finset.sum_congr rfl fun x hx => ?_
  have hid := wt_id (Finset.mem_range.mp hy) (Finset.mem_range.mp hx)
  rw [show (4 : ℕ) * (wt h w (y + 1) (x + 1) * (b ((y + 1) * (w + 2) + (x + 1)) / 4))
        = (4 * wt h w (y + 1) (x + 1)) * (b ((y + 1) * (w + 2) + (x + 1)) / 4) from by ring,
      ← hid]
  ring

/-- Key potential inequality: one synchronous sweep lowers `phi` by at least
four times the number of unit topplings it performs. -/
lemma phi_sweep_le (h w : ℕ) (b : Buf) (hb : ∀ i, ¬ isInterior h w i → b i = 0) :
    (∑ y ∈ Finset.range h, ∑ x ∈ Finset.range w,
        wt h w (y + 1) (x + 1) * cellVal b (w + 2) ((y + 1) * (w + 2) + (x + 1)))
      + 4 * topples h w b ≤ phi h w b := by
  rw [sweep_phi_eq, phi_split]
  have hU := up_sum_le h w b hb
  have hD := down_sum_le h w b hb
  have hL := left_sum_le h w b hb
  have hR := right_sum_le h w b hb
  have hid := wt_targets_id h w b
  omega

lemma div4_eq_zero_of_topples (h w : ℕ) (b : Buf) (hb : ∀ i, ¬ isInterior h w i → b i = 0)
    (hT : topples h w b = 0) :
    ∀ Y X, X < w + 2 → b (Y * (w + 2) + X) / 4 = 0 := by
  intro Y X hX
  by_cases hi : isInterior h w (Y * (w + 2) + X)
  · obtain ⟨h1, h2, h3, h4⟩ := hi
    rw [idx_div Y hX] at h1 h2
    rw [idx_mod Y hX] at h3 h4
    have hmem := (Finset.sum_eq_zero_iff).mp hT
    have hinner := (Finset.sum_eq_zero_iff).mp
      (hmem (Y - 1) (Finset.mem_range.mpr (by omega)))
    have hval := hinner (X - 1) (Finset.mem_range.mpr (by omega))
    rw [show Y - 1 + 1 = Y by omega, show X - 1 + 1 = X by omega] at hval
    exact hval
  · rw [hb _ hi]

lemma topples_pos_of_change (h w : ℕ) (b : Buf) (hb : ∀ i, ¬ isInterior h w i → b i = 0)
    (hex : ∃ y x, 1 ≤ y ∧ y ≤ h ∧ 1 ≤ x ∧ x ≤ w ∧
        cellVal b (w + 2) (y * (w + 2) + x) ≠ b (y * (w + 2) + x)) :
    1 ≤ topples h w b := by
  by_contra h0
  have hT : topples h w b = 0 := by omega
  have ht := div4_eq_zero_of_topples h w b hb hT
  obtain ⟨y, x, h1, h2, h3, h4, hne⟩ := hex
  apply hne
  obtain ⟨y', rfl⟩ : ∃ y', y = y' + 1 := ⟨y - 1, by omega⟩
  obtain ⟨x', rfl⟩ : ∃ x', x = x' + 1 := ⟨x - 1, by omega⟩
  rw [cellVal_at]
  have hc := ht (y' + 1) (x' + 1) (by omega)
  rw [ht (y' + 1) x' (by omega), ht (y' + 1) (x' + 2) (by omega),
      ht y' (x' + 1) (by omega), ht (y' + 2) (x' + 1) (by omega)]
  omega

lemma phi_state_next (h w : ℕ) (s : ℕ → ℕ) (n : ℕ) :
    phi h w (serialState h w s (n + 1)).1 =
      ∑ y ∈ Finset.range h, ∑ x ∈ Finset.range w,
        wt h w (y + 1) (x + 1) *
          cellVal (serialState h w s n).1 (w + 2) ((y + 1) * (w + 2) + (x + 1)) := by
  unfold phi
  refine Finset.sum_congr rfl fun y hy => Finset.sum_congr rfl fun x hx => ?_
  have hy' := Finset.mem_range.mp hy
  have hx' := Finset.mem_range.mp hx
  have hB : (serialState h w s (n + 1)).1 ((y + 1) * (w + 2) + (x + 1)) =
      cellVal (serialState h w s n).1 (w + 2) ((y + 1) * (w + 2) + (x + 1)) := by
    show (sweepBuf h w (serialState h w s n).1 (serialState h w s n).2).1 _ = _
    rw [sweepBuf_fst,
      if_pos (isInterior_idx (by omega) (by omega) (by omega) (by omega))]
  rw [hB]

lemma phi_decreasing (h w : ℕ) (s : ℕ → ℕ) (n : ℕ) (hch : serialChanged h w s n = true) :
    phi h w (serialState h w s (n + 1)).1 + 4 ≤ phi h w (serialState h w s n).1 := by
  have hb : ∀ i, ¬ isInterior h w i → (serialState h w s n).1 i = 0 :=
    fun i hi => (serialState_border h w s n i hi).1
  have hkey := phi_sweep_le h w (serialState h w s n).1 hb
  have hT : 1 ≤ topples h w (serialState h w s n).1 :=
    topples_pos_of_change h w _ hb (sweepBuf_snd_true.mp hch)
  rw [phi_state_next]
  omega

/-- The serial relaxation loop terminates: some sweep reports no change. -/
lemma serial_stops (h w : ℕ) (s : ℕ → ℕ) : ∃ n, serialChanged h w s n = false := by
  by_contra hc
  push_neg at hc
  have hall : ∀ n, serialChanged h w s n = true := by
    intro n
    cases hb : serialChanged h w s n
    · exact absurd hb (hc n)
    · rfl
  have hdec : ∀ n, phi h w (serialState h w s (n + 1)).1 + 4 ≤
      phi h w (serialState h w s n).1 :=
    fun n => phi_decreasing h w s n (hall n)
  have hstep : ∀ n, phi h w (serialState h w s n).1 + 4 * n ≤
      phi h w (serialState h w s 0).1 := by
    intro n
    induction n with
    | zero => omega
    | succ m ih =>
        have := hdec m
        omega
  have h1 := hstep (phi h w (serialState h w s 0).1)
  have h2 := hdec 0
  omega

/-- Any exact fixed point of the sweep has all interior values below 4. -/
lemma stable_values (h w : ℕ) (b : Buf) (hb : ∀ i, ¬ isInterior h w i → b i = 0)
    (hfix : ∀ y x, 1 ≤ y → y ≤ h → 1 ≤ x → x ≤ w →
        cellVal b (w + 2) (y * (w + 2) + x) = b (y * (w + 2) + x)) :
    ∀ i, isInterior h w i → b i ≤ 3 := by
  have hkey := phi_sweep_le h w b hb
  have heq : (∑ y ∈ Finset.range h, ∑ x ∈ Finset.range w,
      wt h w (y + 1) (x + 1) * cellVal b (w + 2) ((y + 1) * (w + 2) + (x + 1)))
        = phi h w b := by
    unfold phi
    refine Finset.sum_congr rfl fun y hy => Finset.sum_congr rfl fun x hx => ?_
    have hy' := Finset.mem_range.mp hy
    have hx' := Finset.mem_range.mp hx
    rw [hfix (y + 1) (x + 1) (by omega) (by omega) (by omega) (by omega)]
  rw [heq] at hkey
  have hT : topples h w b = 0 := by omega
  intro i hi
  obtain ⟨y, x, h1, h2, h3, h4, rfl⟩ := isInterior_elim hi
  have := div4_eq_zero_of_topples h w b hb hT y x (by omega)
  omega

/-- After the sweep that reports no change, every interior value is ≤ 3. -/
lemma serial_stable_range (h w : ℕ) (s : ℕ → ℕ) (n : ℕ)
    (hch : serialChanged h w s n = false) :
    ∀ i, isInterior h w i → (serialState h w s (n + 1)).1 i ≤ 3 := by
  have hfix := sweepBuf_snd_false.mp hch
  have hb : ∀ i, ¬ isInterior h w i → (serialState h w s n).1 i = 0 :=
    fun i hi => (serialState_border h w s n i hi).1
  intro i hi
  have hBi : (serialState h w s (n + 1)).1 i =
      cellVal (serialState h w s n).1 (w + 2) i := by
    show (sweepBuf h w (serialState h w s n).1 (serialState h w s n).2).1 i = _
    rw [sweepBuf_fst, if_pos hi]
  obtain ⟨y, x, h1, h2, h3, h4, rfl⟩ := isInterior_elim hi
  rw [hBi, hfix y x h1 h2 h3 h4]
  exact stable_values h w _ hb hfix _ (isInterior_idx h1 h2 h3 h4)

/-- A no-change sweep leaves the sand buffer pointwise unchanged. -/
lemma serial_fix_eq (h w : ℕ) (s : ℕ → ℕ) (n : ℕ)
    (hch : serialChanged h w s n = false) :
    ∀ i, (serialState h w s (n + 1)).1 i = (serialState h w s n).1 i := by
  intro i
  show (sweepBuf h w (serialState h w s n).1 (serialState h w s n).2).1 i = _
  rw [sweepBuf_fst]
  by_cases hi : isInterior h w i
  · rw [if_pos hi]
    obtain ⟨y, x, h1, h2, h3, h4, rfl⟩ := isInterior_elim hi
    exact sweepBuf_snd_false.mp hch y x h1 h2 h3 h4
  · rw [if_neg hi, (serialState_border h w s n i hi).2,
      (serialState_border h w s n i hi).1]

/-- One further sweep applied after a no-change sweep reproduces the buffer. -/
lemma serial_idempotent (h w : ℕ) (s : ℕ → ℕ) (n : ℕ)
    (hch : serialChanged h w s n = false) :
    ∀ i, (serialState h w s (n + 2)).1 i = (serialState h w s (n + 1)).1 i := by
  have hBA := serial_fix_eq h w s n hch
  intro i
  show (sweepBuf h w (serialState h w s (n + 1)).1 (serialState h w s (n + 1)).2).1 i = _
  rw [sweepBuf_fst]
  by_cases hi : isInterior h w i
  · rw [if_pos hi]
    have hcv : cellVal (serialState h w s (n + 1)).1 (w + 2) i =
        cellVal (serialState h w s n).1 (w + 2) i := by
      unfold cellVal
      rw [hBA, hBA, hBA, hBA, hBA]
    rw [hcv]
    obtain ⟨y, x, h1, h2, h3, h4, rfl⟩ := isInterior_elim hi
    rw [sweepBuf_snd_false.mp hch y x h1 h2 h3 h4]
    exact (hBA _).symm
  · rw [if_neg hi, (serialState_border h w s (n + 1) i hi).2,
      (serialState_border h w s (n + 1) i hi).1]

/-- Per-rank interior row count from test.c:
`local_height = global_height / size; if (rank < rem) local_height++;`. -/
def localHeight (H S r : ℕ) : ℕ := H / S + if r < H % S then 1 else 0

/-- First global interior row (0-based offset) owned by rank `r`: the prefix
sum of earlier ranks' row counts (the quantity behind the gather `displs`). -/
def startRow (H S r : ℕ) : ℕ := ∑ j ∈ Finset.range r, localHeight H S j

lemma startRow_succ (H S r : ℕ) :
    startRow H S (r + 1) = startRow H S r + localHeight H S r :=
  Finset.sum_range_succ _ r

lemma startRow_mono {H S r1 r2 : ℕ} (h : r1 ≤ r2) :
    startRow H S r1 ≤ startRow H S r2 :=
  Finset.sum_le_sum_of_subset (Finset.range_subset.mpr h)

lemma sum_ite_lt (m S : ℕ) :
    (∑ j ∈ Finset.range S, if j < m then 1 else 0) = min S m := by
  induction S with
  | zero => simp
  | succ k ih =>
      rw [Finset.sum_range_succ, ih]
      by_cases h : k < m
      · rw [if_pos h]; omega
      · rw [if_neg h]; omega

lemma startRow_total (H S : ℕ) (hS : 1 ≤ S) : startRow H S S = H := by
  unfold startRow localHeight
  rw [Finset.sum_add_distrib, Finset.sum_const, Finset.card_range, smul_eq_mul,
    sum_ite_lt]
  have h1 := Nat.div_add_mod H S
  have h2 : H % S < S := Nat.mod_lt H (by omega)
  omega

lemma localHeight_antitone {H S r1 r2 : ℕ} (h : r1 ≤ r2) :
    localHeight H S r2 ≤ localHeight H S r1 := by
  unfold localHeight
  by_cases h1 : r1 < H % S <;> by_cases h2 : r2 < H % S <;>
    simp only [h1, h2, if_true, if_false] <;> omega

lemma localHeight_zero_mono {H S r1 r2 : ℕ} (h : r1 ≤ r2)
    (h0 : localHeight H S r1 = 0) : localHeight H S r2 = 0 := by
  have := localHeight_antitone (H := H) (S := S) h
  omega

lemma localHeight_pos (H S r : ℕ) (hS : 1 ≤ S) (hr : S ≤ H) :
    1 ≤ localHeight H S r := by
  unfold localHeight
  have : 1 ≤ H / S := (Nat.one_le_div_iff (by omega)).mpr hr
  by_cases h : r < H % S <;> simp only [h, if_true, if_false] <;> omega

lemma localHeight_zero_first (H S : ℕ) (hH : 1 ≤ H) (hS : 1 ≤ S) :
    1 ≤ localHeight H S 0 := by
  unfold localHeight
  by_cases h : 0 < H % S
  · rw [if_pos h]
    exact Nat.le_add_left 1 _
  · rw [if_neg h]
    have h1 := Nat.div_add_mod H S
    rcases Nat.eq_zero_or_pos (H / S) with hz | hp
    · rw [hz, Nat.mul_zero] at h1
      omega
    · omega

lemma startRow_eq_total {H S r : ℕ} (hS : 1 ≤ S) (hr : r ≤ S)
    (h0 : localHeight H S r = 0) : startRow H S r = H := by
  have htot := startRow_total H S hS
  have hsplit : (∑ j ∈ Finset.range r, localHeight H S j) +
      (∑ j ∈ Finset.Ico r S, localHeight H S j) = ∑ j ∈ Finset.range S, localHeight H S j :=
    Finset.sum_range_add_sum_Ico _ hr
  have hzero : (∑ j ∈ Finset.Ico r S, localHeight H S j) = 0 :=
    Finset.sum_eq_zero fun j hj =>
      localHeight_zero_mono (Finset.mem_Ico.mp hj).1 h0
  unfold startRow at htot ⊢
  omega

lemma rows_cover (H S : ℕ) (hS : 1 ≤ S) :
    ∀ Y, 1 ≤ Y → Y ≤ H → ∃ r, r < S ∧ ∃ y, 1 ≤ y ∧ y ≤ localHeight H S r ∧
      Y = startRow H S r + y := by
  have key : ∀ k, k ≤ S → ∀ Y, 1 ≤ Y → Y ≤ startRow H S k →
      ∃ r, r < k ∧ ∃ y, 1 ≤ y ∧ y ≤ localHeight H S r ∧ Y = startRow H S r + y := by
    intro k
    induction k with
    | zero =>
        intro _ Y h1 h2
        simp only [startRow, Finset.range_zero, Finset.sum_empty] at h2
        omega
    | succ m ih =>
        intro hk Y h1 h2
        by_cases hY : Y ≤ startRow H S m
        · obtain ⟨r, hr, hy⟩ := ih (by omega) Y h1 hY
          exact ⟨r, by omega, hy⟩
        · rw [startRow_succ] at h2
          exact ⟨m, by omega, Y - startRow H S m, by omega, by omega, by omega⟩
  intro Y h1 h2
  refine key S le_rfl Y h1 ?_
  rw [startRow_total H S hS]
  exact h2

lemma row_in_range {H S : ℕ} (hS : 1 ≤ S) {r y : ℕ} (hr : r < S) (hy : 1 ≤ y)
    (hy2 : y ≤ localHeight H S r) : startRow H S r + y ≤ H := by
  have h1 : startRow H S r + y ≤ startRow H S (r + 1) := by
    rw [startRow_succ]; omega
  have h2 : startRow H S (r + 1) ≤ startRow H S S := startRow_mono (by omega)
  rw [startRow_total H S hS] at h2
  omega

/-- Per-rank buffer families of the distributed run. -/
abbrev Bufs : Type := ℕ → Buf

/-- Copy of one `cols`-wide row (the effect of an `MPI_Sendrecv` receive):
slots `dstRow*cols .. dstRow*cols+cols-1` of `dst` are replaced by the
corresponding slots of row `srcRow` of `src`. -/
def rowCopy (src : Buf) (srcRow : ℕ) (dst : Buf) (dstRow cols : ℕ) : Buf :=
  fun i => if dstRow * cols ≤ i ∧ i < dstRow * cols + cols then
    src (srcRow * cols + (i - dstRow * cols)) else dst i

/-- The matched `MPI_Sendrecv` pair between ranks `k-1` and `k` (rank
`k-1`'s bottom exchange, rank `k`'s top exchange): rank `k-1` receives rank
`k`'s row 1 into its bottom halo row, rank `k` receives rank `k-1`'s row
`localHeight` into its top halo row; both reads are from the pre-pair
buffers. -/
def exchangePair (H S W k : ℕ) (bufs : Bufs) : Bufs :=
  fun r =>
    if r = k - 1 then
      rowCopy (bufs k) 1 (bufs (k - 1)) (localHeight H S (k - 1) + 1) (W + 2)
    else if r = k then
      rowCopy (bufs (k - 1)) (localHeight H S (k - 1)) (bufs k) 0 (W + 2)
    else bufs r

/-- All halo exchanges of one sweep.  The `Sendrecv` pairs complete in
increasing order of the boundary index `k` (each rank posts its top
exchange before its bottom exchange), so the protocol is a left fold of
the pair operation over `k = 1 .. S-1`. -/
def exchangeAll (H S W : ℕ) (bufs : Bufs) : Bufs :=
  (List.range' 1 (S - 1)).foldl (fun b k => exchangePair H S W k b) bufs

/-- Row data that rank `r` sends downwards (to rank `r+1`) during the
exchange phase: its last owned row if it owns rows; a rank owning no rows
forwards what it has just received from above, because its rows 0 and
`localHeight` coincide. -/
def downData (H S W : ℕ) (sands : Bufs) : ℕ → ℕ → ℕ
  | 0 => fun o => sands 0 (localHeight H S 0 * (W + 2) + o)
  | r + 1 => fun o =>
      if localHeight H S (r + 1) = 0 then downData H S W sands r o
      else sands (r + 1) (localHeight H S (r + 1) * (W + 2) + o)

lemma downData_succ (H S W : ℕ) (sands : Bufs) (r o : ℕ) :
    downData H S W sands (r + 1) o =
      if localHeight H S (r + 1) = 0 then downData H S W sands r o
      else sands (r + 1) (localHeight H S (r + 1) * (W + 2) + o) := rfl

lemma downData_pos {H S W : ℕ} {sands : Bufs} {r : ℕ}
    (hlh : 1 ≤ localHeight H S r) (o : ℕ) :
    downData H S W sands r o = sands r (localHeight H S r * (W + 2) + o) := by
  cases r with
  | zero => rfl
  | succ r' => rw [downData_succ, if_neg (by omega)]

/-- Closed description of the buffers after the exchange pairs `1 .. m`. -/
def exSpec (H S W : ℕ) (sands : Bufs) (m r i : ℕ) : ℕ :=
  if 1 ≤ r ∧ r ≤ m ∧ i < W + 2 then downData H S W sands (r - 1) i
  else if r + 1 ≤ m ∧ (localHeight H S r + 1) * (W + 2) ≤ i ∧
      i < (localHeight H S r + 2) * (W + 2) then
    sands (r + 1) ((W + 2) + (i - (localHeight H S r + 1) * (W + 2)))
  else sands r i

lemma exSpec_atRow {H S W : ℕ} (sands : Bufs) (m : ℕ) :
    ∀ i, i < W + 2 →
      exSpec H S W sands m m (localHeight H S m * (W + 2) + i) =
        downData H S W sands m i := by
  intro i hi
  unfold exSpec
  cases m with
  | zero =>
      rw [if_neg (by omega), if_neg (by omega)]
      rfl
  | succ m' =>
      by_cases hlh : localHeight H S (m' + 1) = 0
      · rw [hlh, zero_mul, zero_add]
        rw [if_pos ⟨by omega, le_rfl, hi⟩]
        rw [downData_succ, if_pos hlh]
        rw [show m' + 1 - 1 = m' by omega]
      · have hge : (W + 2) ≤ localHeight H S (m' + 1) * (W + 2) :=
          Nat.le_mul_of_pos_left (W + 2) (by omega)
        rw [if_neg (by omega), if_neg (by omega)]
        rw [downData_succ, if_neg hlh]

lemma exchange_fold_spec (H S W : ℕ) (sands : Bufs) :
    ∀ m r i, ((List.range' 1 m).foldl (fun b k => exchangePair H S W k b) sands) r i
      = exSpec H S W sands m r i := by
  intro m
  induction m with
  | zero =>
      intro r i
      show sands r i = exSpec H S W sands 0 r i
      unfold exSpec
      rw [if_neg (by omega), if_neg (by omega)]
  | succ m ih =>
      intro r i
      rw [List.range'_concat, List.foldl_append, List.foldl_cons, List.foldl_nil]
      simp only [exchangePair, show 1 + 1 * m = m + 1 from by omega,
        show m + 1 - 1 = m from by omega]
      by_cases hrm : r = m
      · subst hrm
        rw [if_pos rfl]
        by_cases hwin : (localHeight H S r + 1) * (W + 2) ≤ i ∧
            i < (localHeight H S r + 1) * (W + 2) + (W + 2)
        · rw [rowCopy, if_pos hwin, ih]
          have hige : (W + 2) ≤ i := by
            have := Nat.le_mul_of_pos_left (W + 2)
              (show 0 < localHeight H S r + 1 by omega)
            omega
          have hsp : (localHeight H S r + 2) * (W + 2)
              = (localHeight H S r + 1) * (W + 2) + (W + 2) := by ring
          unfold exSpec
          rw [if_neg (show ¬(1 ≤ r + 1 ∧ r + 1 ≤ r ∧
              1 * (W + 2) + (i - (localHeight H S r + 1) * (W + 2)) < W + 2) from by omega)]
          rw [if_neg (show ¬(r + 1 + 1 ≤ r ∧
              (localHeight H S (r + 1) + 1) * (W + 2) ≤
                1 * (W + 2) + (i - (localHeight H S r + 1) * (W + 2)) ∧
              1 * (W + 2) + (i - (localHeight H S r + 1) * (W + 2)) <
                (localHeight H S (r + 1) + 2) * (W + 2)) from by omega)]
          rw [if_neg (show ¬(1 ≤ r ∧ r ≤ r + 1 ∧ i < W + 2) from by omega)]
          rw [if_pos (show r + 1 ≤ r + 1 ∧ (localHeight H S r + 1) * (W + 2) ≤ i ∧
              i < (localHeight H S r + 2) * (W + 2) from ⟨le_rfl, hwin.1, by omega⟩)]
          rw [one_mul]
        · rw [rowCopy, if_neg hwin, ih]
          have hsp : (localHeight H S r + 2) * (W + 2)
              = (localHeight H S r + 1) * (W + 2) + (W + 2) := by ring
          unfold exSpec
          by_cases hc1 : 1 ≤ r ∧ i < W + 2
          · rw [if_pos (show 1 ≤ r ∧ r ≤ r ∧ i < W + 2 from ⟨hc1.1, le_rfl, hc1.2⟩),
              if_pos (show 1 ≤ r ∧ r ≤ r + 1 ∧ i < W + 2 from ⟨hc1.1, by omega, hc1.2⟩)]
          · rw [if_neg (show ¬(1 ≤ r ∧ r ≤ r ∧ i < W + 2) from by omega),
              if_neg (show ¬(r + 1 ≤ r ∧ (localHeight H S r + 1) * (W + 2) ≤ i ∧
                i < (localHeight H S r + 2) * (W + 2)) from by omega),
              if_neg (show ¬(1 ≤ r ∧ r ≤ r + 1 ∧ i < W + 2) from by omega),
              if_neg (show ¬(r + 1 ≤ r + 1 ∧ (localHeight H S r + 1) * (W + 2) ≤ i ∧
                i < (localHeight H S r + 2) * (W + 2)) from by omega)]
      · by_cases hrm1 : r = m + 1
        · subst hrm1
          rw [if_neg hrm, if_pos rfl]
          by_cases hi : i < W + 2
          · rw [rowCopy,
              if_pos (show 0 * (W + 2) ≤ i ∧ i < 0 * (W + 2) + (W + 2) from
                ⟨by omega, by omega⟩)]
            rw [show i - 0 * (W + 2) = i from by omega]
            rw [ih]
            rw [exSpec_atRow sands m i hi]
            unfold exSpec
            rw [if_pos (show 1 ≤ m + 1 ∧ m + 1 ≤ m + 1 ∧ i < W + 2 from
              ⟨by omega, le_rfl, hi⟩)]
            rw [show m + 1 - 1 = m from by omega]
          · rw [rowCopy, if_neg (show ¬(0 * (W + 2) ≤ i ∧ i < 0 * (W + 2) + (W + 2))
                from by omega), ih]
            unfold exSpec
            rw [if_neg (show ¬(1 ≤ m + 1 ∧ m + 1 ≤ m ∧ i < W + 2) from by omega),
              if_neg (show ¬(m + 1 + 1 ≤ m ∧
                (localHeight H S (m + 1) + 1) * (W + 2) ≤ i ∧
                i < (localHeight H S (m + 1) + 2) * (W + 2)) from by omega),
              if_neg (show ¬(1 ≤ m + 1 ∧ m + 1 ≤ m + 1 ∧ i < W + 2) from by omega),
              if_neg (show ¬(m + 1 + 1 ≤ m + 1 ∧
                (localHeight H S (m + 1) + 1) * (W + 2) ≤ i ∧
                i < (localHeight H S (m + 1) + 2) * (W + 2)) from by omega)]
        · rw [if_neg hrm, if_neg hrm1, ih]
          unfold exSpec
          by_cases hc1 : 1 ≤ r ∧ r ≤ m ∧ i < W + 2
          · rw [if_pos hc1,
              if_pos (show 1 ≤ r ∧ r ≤ m + 1 ∧ i < W + 2 from ⟨hc1.1, by omega, hc1.2.2⟩)]
          · rw [if_neg hc1,
              if_neg (show ¬(1 ≤ r ∧ r ≤ m + 1 ∧ i < W + 2) from by omega)]
            by_cases hc2 : r + 1 ≤ m ∧ (localHeight H S r + 1) * (W + 2) ≤ i ∧
                i < (localHeight H S r + 2) * (W + 2)
            · rw [if_pos hc2,
                if_pos (show r + 1 ≤ m + 1 ∧ (localHeight H S r + 1) * (W + 2) ≤ i ∧
                  i < (localHeight H S r + 2) * (W + 2) from ⟨by omega, hc2.2.1, hc2.2.2⟩)]
            · rw [if_neg hc2,
                if_neg (show ¬(r + 1 ≤ m + 1 ∧ (localHeight H S r + 1) * (W + 2) ≤ i ∧
                  i < (localHeight H S r + 2) * (W + 2)) from by omega)]

lemma exchangeAll_eq (H S W : ℕ) (sands : Bufs) (r i : ℕ) :
    exchangeAll H S W sands r i = exSpec H S W sands (S - 1) r i :=
  exchange_fold_spec H S W sands (S - 1) r i

/-- The reference seed: every interior cell starts with 4 grains. -/
def seed4 : ℕ → ℕ := fun _ => 4

/-- Distributed (test.c) state after `n` sweeps: per-rank `(sand, next)`
buffers.  One iteration exchanges halo rows in `sand`, sweeps the local
interior into `next`, swaps, and (separately) reduces the changed flag. -/
def dState (H W S : ℕ) : ℕ → Bufs × Bufs
  | 0 => (fun r => initBuf (localHeight H S r) W seed4, fun _ => fun _ => 0)
  | n + 1 =>
      ((fun r => (sweepBuf (localHeight H S r) W
          (exchangeAll H S W (dState H W S n).1 r) ((dState H W S n).2 r)).1),
       exchangeAll H S W (dState H W S n).1)

/-- The `MPI_Allreduce(..., MPI_LOR, ...)` global changed flag of sweep `n`. -/
def dChanged (H W S : ℕ) (n : ℕ) : Bool :=
  (List.range S).any fun r =>
    (sweepBuf (localHeight H S r) W
      (exchangeAll H S W (dState H W S n).1 r) ((dState H W S n).2 r)).2

/-- Simulation invariant tying the distributed state to the serial state:
(A) owned rows mirror the corresponding global rows; (B) sink columns of
both local buffers are zero on all local rows; (C) rank 0's top halo row is
zero in both buffers; (E) a zero-row rank's row 1 is zero in both buffers;
(D) the last rank's bottom halo row is zero in both buffers. -/
def SimInv (H W S n : ℕ) : Prop :=
  (∀ r, r < S → ∀ y x, 1 ≤ y → y ≤ localHeight H S r → x < W + 2 →
      (dState H W S n).1 r (y * (W + 2) + x) =
        (serialState H W seed4 n).1 ((startRow H S r + y) * (W + 2) + x))
  ∧ (∀ r, r < S → ∀ y x, y ≤ localHeight H S r + 1 → (x = 0 ∨ x = W + 1) →
      (dState H W S n).1 r (y * (W + 2) + x) = 0 ∧
        (dState H W S n).2 r (y * (W + 2) + x) = 0)
  ∧ (∀ x, x < W + 2 →
      (dState H W S n).1 0 x = 0 ∧ (dState H W S n).2 0 x = 0)
  ∧ (∀ r, r < S → localHeight H S r = 0 → ∀ x, x < W + 2 →
      (dState H W S n).1 r ((W + 2) + x) = 0 ∧ (dState H W S n).2 r ((W + 2) + x) = 0)
  ∧ (∀ x, x < W + 2 →
      (dState H W S n).1 (S - 1) ((localHeight H S (S - 1) + 1) * (W + 2) + x) = 0 ∧
        (dState H W S n).2 (S - 1) ((localHeight H S (S - 1) + 1) * (W + 2) + x) = 0)

lemma initBuf_eval (h w : ℕ) (s : ℕ → ℕ) (y x : ℕ) (hx : x < w + 2) :
    initBuf h w s (y * (w + 2) + x) =
      if 1 ≤ y ∧ y ≤ h ∧ 1 ≤ x ∧ x ≤ w then s (y * (w + 2) + x) else 0 := by
  unfold initBuf
  by_cases hc : 1 ≤ y ∧ y ≤ h ∧ 1 ≤ x ∧ x ≤ w
  · rw [if_pos (isInterior_idx hc.1 hc.2.1 hc.2.2.1 hc.2.2.2), if_pos hc]
  · have hni : ¬ isInterior h w (y * (w + 2) + x) := by
      intro hi
      obtain ⟨h1, h2, h3, h4⟩ := hi
      rw [idx_div y hx] at h1 h2
      rw [idx_mod y hx] at h3 h4
      exact hc ⟨h1, h2, h3, h4⟩
    rw [if_neg hni, if_neg hc]

lemma simInv_zero (H W S : ℕ) (hS : 1 ≤ S) : SimInv H W S 0 := by
  refine ⟨?_, ?_, ?_, ?_, ?_⟩
  · intro r hr y x hy1 hy2 hx
    show initBuf (localHeight H S r) W seed4 (y * (W + 2) + x) =
      initBuf H W seed4 ((startRow H S r + y) * (W + 2) + x)
    rw [initBuf_eval _ _ _ _ _ hx, initBuf_eval _ _ _ _ _ hx]
    have hle := row_in_range hS hr hy1 hy2
    by_cases hxx : 1 ≤ x ∧ x ≤ W
    · rw [if_pos ⟨hy1, hy2, hxx.1, hxx.2⟩, if_pos ⟨by omega, hle, hxx.1, hxx.2⟩]
      rfl
    · rw [if_neg (by omega), if_neg (by omega)]
  · intro r hr y x hy hsink
    refine ⟨?_, rfl⟩
    show initBuf (localHeight H S r) W seed4 (y * (W + 2) + x) = 0
    rw [initBuf_eval _ _ _ _ _ (by omega), if_neg (by omega)]
  · intro x hx
    refine ⟨?_, rfl⟩
    show initBuf (localHeight H S 0) W seed4 x = 0
    rw [initBuf, if_neg (not_isInterior_row0 hx)]
  · intro r hr h0 x hx
    refine ⟨?_, rfl⟩
    show initBuf (localHeight H S r) W seed4 ((W + 2) + x) = 0
    rw [show (W + 2) + x = 1 * (W + 2) + x from by omega,
      initBuf_eval _ _ _ _ _ hx, if_neg (by omega)]
  · intro x hx
    refine ⟨?_, rfl⟩
    show initBuf (localHeight H S (S - 1)) W seed4
      ((localHeight H S (S - 1) + 1) * (W + 2) + x) = 0
    rw [initBuf_eval _ _ _ _ _ hx, if_neg (by omega)]

lemma startRow_zero (H S : ℕ) : startRow H S 0 = 0 := by
  simp [startRow]

/-- After the halo exchange, a rank owning at least one row sees, on its
whole `localHeight + 2`-row window, exactly the corresponding rows of the
global serial buffer. -/
lemma window_eq (H W S : ℕ) (hS : 1 ≤ S) (n : ℕ) (hinv : SimInv H W S n) :
    ∀ r, r < S → 1 ≤ localHeight H S r → ∀ y x, y ≤ localHeight H S r + 1 → x < W + 2 →
      exchangeAll H S W (dState H W S n).1 r (y * (W + 2) + x) =
        (serialState H W seed4 n).1 ((startRow H S r + y) * (W + 2) + x) := by
  obtain ⟨hA, hB, hC, hE, hD⟩ := hinv
  intro r hr hlh y x hy hx
  rw [exchangeAll_eq]
  unfold exSpec
  rcases Nat.eq_zero_or_pos y with rfl | hy1
  · rw [zero_mul, zero_add, add_zero]
    by_cases hr0 : 1 ≤ r
    · rw [if_pos (show 1 ≤ r ∧ r ≤ S - 1 ∧ x < W + 2 from ⟨hr0, by omega, hx⟩)]
      have hlh' : 1 ≤ localHeight H S (r - 1) := by
        have := localHeight_antitone (H := H) (S := S) (show r - 1 ≤ r from by omega)
        omega
      rw [downData_pos hlh']
      rw [hA (r - 1) (by omega) (localHeight H S (r - 1)) x hlh' le_rfl hx]
      rw [show startRow H S (r - 1) + localHeight H S (r - 1) = startRow H S r from by
        have h1 := startRow_succ H S (r - 1)
        rw [show r - 1 + 1 = r from by omega] at h1
        omega]
    · have hxc : ¬ ((localHeight H S r + 1) * (W + 2) ≤ x) := by
        have := Nat.le_mul_of_pos_left (W + 2)
          (show 0 < localHeight H S r + 1 from by omega)
        omega
      rw [if_neg (by omega), if_neg (by omega)]
      have hr' : r = 0 := by omega
      subst hr'
      rw [(hC x hx).1, startRow_zero, zero_mul, zero_add]
      exact ((serialState_border H W seed4 n x (not_isInterior_row0 hx)).1).symm
  · have hcge : (W + 2) ≤ y * (W + 2) := Nat.le_mul_of_pos_left (W + 2) (by omega)
    by_cases hylh : y ≤ localHeight H S r
    · have hlt : y * (W + 2) + x < (localHeight H S r + 1) * (W + 2) := by
        have h1 : (y + 1) * (W + 2) ≤ (localHeight H S r + 1) * (W + 2) :=
          Nat.mul_le_mul_right (W + 2) (by omega)
        have h2 : (y + 1) * (W + 2) = y * (W + 2) + (W + 2) := by ring
        omega
      rw [if_neg (by omega), if_neg (by omega)]
      exact hA r hr y x hy1 hylh hx
    · have hyeq : y = localHeight H S r + 1 := by omega
      subst hyeq
      rw [if_neg (by omega)]
      by_cases hrS : r + 1 ≤ S - 1
      · rw [if_pos (show r + 1 ≤ S - 1 ∧
            (localHeight H S r + 1) * (W + 2) ≤ (localHeight H S r + 1) * (W + 2) + x ∧
            (localHeight H S r + 1) * (W + 2) + x < (localHeight H S r + 2) * (W + 2) from
          ⟨hrS, Nat.le_add_right _ _, by
            have : (localHeight H S r + 2) * (W + 2)
                = (localHeight H S r + 1) * (W + 2) + (W + 2) := by ring
            omega⟩)]
        rw [Nat.add_sub_cancel_left]
        have hrow : startRow H S r + (localHeight H S r + 1) = startRow H S (r + 1) + 1 := by
          have := startRow_succ H S r
          omega
        by_cases hlh1 : 1 ≤ localHeight H S (r + 1)
        · have := hA (r + 1) (by omega) 1 x (le_rfl) hlh1 hx
          rw [one_mul] at this
          rw [this, hrow]
        · have hz : localHeight H S (r + 1) = 0 := by omega
          rw [(hE (r + 1) (by omega) hz x hx).1, hrow]
          rw [startRow_eq_total hS (by omega) hz]
          exact ((serialState_border H W seed4 n _
            (not_isInterior_at hx (by omega))).1).symm
      · rw [if_neg (by omega)]
        have hrS1 : r = S - 1 := by omega
        subst hrS1
        rw [(hD x hx).1]
        have hrow : startRow H S (S - 1) + (localHeight H S (S - 1) + 1) = H + 1 := by
          have h1 := startRow_succ H S (S - 1)
          rw [show S - 1 + 1 = S from by omega] at h1
          have h2 := startRow_total H S hS
          omega
        rw [hrow]
        exact ((serialState_border H W seed4 n _
          (not_isInterior_at hx (by omega))).1).symm

lemma serialState_succ_fst (h w : ℕ) (s : ℕ → ℕ) (n i : ℕ) :
    (serialState h w s (n + 1)).1 i =
      if isInterior h w i then cellVal (serialState h w s n).1 (w + 2) i
      else (serialState h w s n).1 i := by
  show (sweepBuf h w (serialState h w s n).1 (serialState h w s n).2).1 i = _
  rw [sweepBuf_fst]
  by_cases hi : isInterior h w i
  · rw [if_pos hi, if_pos hi]
  · rw [if_neg hi, if_neg hi, (serialState_border h w s n i hi).2,
      (serialState_border h w s n i hi).1]

lemma dState_succ_fst (H W S n r i : ℕ) :
    (dState H W S (n + 1)).1 r i =
      if isInterior (localHeight H S r) W i then
        cellVal (exchangeAll H S W (dState H W S n).1 r) (W + 2) i
      else (dState H W S n).2 r i := by
  show (sweepBuf (localHeight H S r) W (exchangeAll H S W (dState H W S n).1 r)
      ((dState H W S n).2 r)).1 i = _
  rw [sweepBuf_fst]

lemma dState_succ_snd (H W S n : ℕ) :
    (dState H W S (n + 1)).2 = exchangeAll H S W (dState H W S n).1 := rfl

lemma downData_sink (H W S : ℕ) (n : ℕ) (hinv : SimInv H W S n) :
    ∀ r, r < S → ∀ x, (x = 0 ∨ x = W + 1) →
      downData H S W (dState H W S n).1 r x = 0 := by
  obtain ⟨hA, hB, hC, hE, hD⟩ := hinv
  intro r
  induction r with
  | zero =>
      intro hr x hx
      show (dState H W S n).1 0 (localHeight H S 0 * (W + 2) + x) = 0
      exact (hB 0 hr (localHeight H S 0) x (by omega) hx).1
  | succ r' ih =>
      intro hr x hx
      rw [downData_succ]
      by_cases hz : localHeight H S (r' + 1) = 0
      · rw [if_pos hz]
        exact ih (by omega) x hx
      · rw [if_neg hz]
        exact (hB (r' + 1) hr (localHeight H S (r' + 1)) x (by omega) hx).1

lemma exchange_sink (H W S : ℕ) (hS : 1 ≤ S) (n : ℕ) (hinv : SimInv H W S n) :
    ∀ r, r < S → ∀ y x, y ≤ localHeight H S r + 1 → (x = 0 ∨ x = W + 1) →
      exchangeAll H S W (dState H W S n).1 r (y * (W + 2) + x) = 0 := by
  have hDS := downData_sink H W S n hinv
  obtain ⟨hA, hB, hC, hE, hD⟩ := hinv
  intro r hr y x hy hx
  rw [exchangeAll_eq]
  unfold exSpec
  rcases Nat.eq_zero_or_pos y with rfl | hy1
  · rw [zero_mul, zero_add]
    by_cases hr0 : 1 ≤ r
    · rw [if_pos (show 1 ≤ r ∧ r ≤ S - 1 ∧ x < W + 2 from ⟨hr0, by omega, by omega⟩)]
      exact hDS (r - 1) (by omega) x hx
    · have hxc : ¬ ((localHeight H S r + 1) * (W + 2) ≤ x) := by
        have := Nat.le_mul_of_pos_left (W + 2)
          (show 0 < localHeight H S r + 1 from by omega)
        omega
      rw [if_neg (by omega), if_neg (by omega)]
      have hr' : r = 0 := by omega
      subst hr'
      have := (hB 0 hr 0 x (by omega) hx).1
      rw [zero_mul, zero_add] at this
      exact this
  · have hcge : (W + 2) ≤ y * (W + 2) := Nat.le_mul_of_pos_left (W + 2) (by omega)
    by_cases hylh : y ≤ localHeight H S r
    · have hlt : y * (W + 2) + x < (localHeight H S r + 1) * (W + 2) := by
        have h1 : (y + 1) * (W + 2) ≤ (localHeight H S r + 1) * (W + 2) :=
          Nat.mul_le_mul_right (W + 2) (by omega)
        have h2 : (y + 1) * (W + 2) = y * (W + 2) + (W + 2) := by ring
        omega
      rw [if_neg (by omega), if_neg (by omega)]
      exact (hB r hr y x (by omega) hx).1
    · have hyeq : y = localHeight H S r + 1 := by omega
      subst hyeq
      rw [if_neg (by omega)]
      by_cases hrS : r + 1 ≤ S - 1
      · rw [if_pos (show r + 1 ≤ S - 1 ∧
            (localHeight H S r + 1) * (W + 2) ≤ (localHeight H S r + 1) * (W + 2) + x ∧
            (localHeight H S r + 1) * (W + 2) + x < (localHeight H S r + 2) * (W + 2) from
          ⟨hrS, Nat.le_add_right _ _, by
            have : (localHeight H S r + 2) * (W + 2)
                = (localHeight H S r + 1) * (W + 2) + (W + 2) := by ring
            omega⟩)]
        rw [Nat.add_sub_cancel_left]
        have h1 := (hB (r + 1) (by omega) 1 x (by omega) hx).1
        rw [one_mul] at h1
        exact h1
      · rw [if_neg (by omega)]
        exact (hB r hr (localHeight H S r + 1) x (by omega) hx).1

lemma simInv_step (H W S : ℕ) (hS : 1 ≤ S) (n : ℕ) (hinv : SimInv H W S n) :
    SimInv H W S (n + 1) := by
  have hwin := window_eq H W S hS n hinv
  have hsink := exchange_sink H W S hS n hinv
  obtain ⟨hA, hB, hC, hE, hD⟩ := hinv
  refine ⟨?_, ?_, ?_, ?_, ?_⟩
  · intro r hr y x hy1 hy2 hx
    have hlh : 1 ≤ localHeight H S r := by omega
    rw [dState_succ_fst, serialState_succ_fst]
    have hrow1 : 1 ≤ startRow H S r + y := by omega
    have hrow2 : startRow H S r + y ≤ H := row_in_range hS hr hy1 hy2
    by_cases hxx : 1 ≤ x ∧ x ≤ W
    · rw [if_pos (isInterior_idx hy1 hy2 hxx.1 hxx.2),
        if_pos (isInterior_idx hrow1 hrow2 hxx.1 hxx.2)]
      obtain ⟨y', rfl⟩ : ∃ y', y = y' + 1 := ⟨y - 1, by omega⟩
      obtain ⟨x', rfl⟩ : ∃ x', x = x' + 1 := ⟨x - 1, by omega⟩
      rw [cellVal_at]
      rw [show startRow H S r + (y' + 1) = startRow H S r + y' + 1 from by omega]
      rw [cellVal_at]
      rw [hwin r hr hlh (y' + 1) x' (by omega) (by omega),
          hwin r hr hlh (y' + 1) (x' + 2) (by omega) (by omega),
          hwin r hr hlh y' (x' + 1) (by omega) (by omega),
          hwin r hr hlh (y' + 2) (x' + 1) (by omega) (by omega),
          hwin r hr hlh (y' + 1) (x' + 1) (by omega) (by omega)]
      rw [show startRow H S r + (y' + 1) = startRow H S r + y' + 1 from by omega,
          show startRow H S r + (y' + 2) = startRow H S r + y' + 2 from by omega]
    · have hn1 : ¬ isInterior (localHeight H S r) W (y * (W + 2) + x) :=
        not_isInterior_at hx (by omega)
      have hn2 : ¬ isInterior H W ((startRow H S r + y) * (W + 2) + x) :=
        not_isInterior_at hx (by omega)
      rw [if_neg hn1, if_neg hn2]
      rw [(hB r hr y x (by omega) (by omega)).2]
      exact ((serialState_border H W seed4 n _ hn2).1).symm
  · intro r hr y x hy hxs
    constructor
    · rw [dState_succ_fst, if_neg (not_isInterior_at (by omega) (by omega))]
      exact (hB r hr y x hy hxs).2
    · rw [dState_succ_snd]
      exact hsink r hr y x hy hxs
  · intro x hx
    constructor
    · rw [dState_succ_fst, if_neg (not_isInterior_row0 hx)]
      exact (hC x hx).2
    · rw [dState_succ_snd, exchangeAll_eq]
      unfold exSpec
      have hxc : ¬ ((localHeight H S 0 + 1) * (W + 2) ≤ x) := by
        have := Nat.le_mul_of_pos_left (W + 2)
          (show 0 < localHeight H S 0 + 1 from by omega)
        omega
      rw [if_neg (by omega), if_neg (by omega)]
      exact (hC x hx).1
  · intro r hr hz x hx
    have hrow : (W + 2) + x = 1 * (W + 2) + x := by omega
    constructor
    · rw [dState_succ_fst, hrow, if_neg (not_isInterior_at hx (by omega))]
      have := (hE r hr hz x hx).2
      rw [hrow] at this
      exact this
    · rw [dState_succ_snd, exchangeAll_eq]
      unfold exSpec
      have hone : (localHeight H S r + 1) * (W + 2) = W + 2 := by
        rw [hz]; ring
      have htwo : (localHeight H S r + 2) * (W + 2) = (W + 2) + (W + 2) := by
        rw [hz]; ring
      rw [if_neg (show ¬ (1 ≤ r ∧ r ≤ S - 1 ∧ (W + 2) + x < W + 2) from by omega)]
      by_cases hrS : r + 1 ≤ S - 1
      · rw [if_pos (show r + 1 ≤ S - 1 ∧
            (localHeight H S r + 1) * (W + 2) ≤ (W + 2) + x ∧
            (W + 2) + x < (localHeight H S r + 2) * (W + 2) from
          ⟨hrS, by omega, by omega⟩)]
        rw [show (W + 2) + x - (localHeight H S r + 1) * (W + 2) = x from by omega]
        exact (hE (r + 1) (by omega) (localHeight_zero_mono (by omega) hz) x hx).1
      · rw [if_neg (by omega)]
        exact (hE r hr hz x hx).1
  · intro x hx
    have hge : (W + 2) ≤ (localHeight H S (S - 1) + 1) * (W + 2) :=
      Nat.le_mul_of_pos_left (W + 2) (by omega)
    constructor
    · rw [dState_succ_fst, if_neg (not_isInterior_at hx (by omega))]
      exact (hD x hx).2
    · rw [dState_succ_snd, exchangeAll_eq]
      unfold exSpec
      rw [if_neg (by omega), if_neg (by omega)]
      exact (hD x hx).1

lemma simInv_all (H W S : ℕ) (hS : 1 ≤ S) (n : ℕ) : SimInv H W S n := by
  induction n with
  | zero => exact simInv_zero H W S hS
  | succ m ih => exact simInv_step H W S hS m ih

lemma cellVal_window (H W S : ℕ) (hS : 1 ≤ S) (n : ℕ) (hinv : SimInv H W S n)
    (r : ℕ) (hr : r < S) (hlh : 1 ≤ localHeight H S r) (y x : ℕ)
    (hy1 : 1 ≤ y) (hy2 : y ≤ localHeight H S r) (hx1 : 1 ≤ x) (hx2 : x ≤ W) :
    cellVal (exchangeAll H S W (dState H W S n).1 r) (W + 2) (y * (W + 2) + x)
      = cellVal (serialState H W seed4 n).1 (W + 2)
          ((startRow H S r + y) * (W + 2) + x) := by
  have hwin := window_eq H W S hS n hinv
  obtain ⟨y', rfl⟩ : ∃ y', y = y' + 1 := ⟨y - 1, by omega⟩
  obtain ⟨x', rfl⟩ : ∃ x', x = x' + 1 := ⟨x - 1, by omega⟩
  rw [cellVal_at]
  rw [show startRow H S r + (y' + 1) = startRow H S r + y' + 1 from by omega]
  rw [cellVal_at]
  rw [hwin r hr hlh (y' + 1) x' (by omega) (by omega),
      hwin r hr hlh (y' + 1) (x' + 2) (by omega) (by omega),
      hwin r hr hlh y' (x' + 1) (by omega) (by omega),
      hwin r hr hlh (y' + 2) (x' + 1) (by omega) (by omega),
      hwin r hr hlh (y' + 1) (x' + 1) (by omega) (by omega)]
  rw [show startRow H S r + (y' + 1) = startRow H S r + y' + 1 from by omega,
      show startRow H S r + (y' + 2) = startRow H S r + y' + 2 from by omega]

/-- The `MPI_Allreduce` OR of the local changed flags equals the serial
changed flag at every sweep index. -/
lemma dChanged_iff (H W S : ℕ) (hS : 1 ≤ S) (n : ℕ) :
    dChanged H W S n = true ↔ serialChanged H W seed4 n = true := by
  have hinv := simInv_all H W S hS n
  have hwin := window_eq H W S hS n hinv
  constructor
  · intro hd
    rw [dChanged, List.any_eq_true] at hd
    obtain ⟨r, hrm, hflag⟩ := hd
    have hr : r < S := List.mem_range.mp hrm
    obtain ⟨y, x, h1, h2, h3, h4, hne⟩ := sweepBuf_snd_true.mp hflag
    have hlh : 1 ≤ localHeight H S r := by omega
    unfold serialChanged
    rw [sweepBuf_snd_true]
    refine ⟨startRow H S r + y, x, by omega, row_in_range hS hr h1 h2, h3, h4, ?_⟩
    rw [← cellVal_window H W S hS n hinv r hr hlh y x h1 h2 h3 h4,
        ← hwin r hr hlh y x (by omega) (by omega)]
    exact hne
  · intro hs
    unfold serialChanged at hs
    obtain ⟨Y, x, h1, h2, h3, h4, hne⟩ := sweepBuf_snd_true.mp hs
    obtain ⟨r, hr, y, hy1, hy2, hyeq⟩ := rows_cover H S hS Y h1 h2
    rw [dChanged, List.any_eq_true]
    refine ⟨r, List.mem_range.mpr hr, ?_⟩
    rw [sweepBuf_snd_true]
    have hlh : 1 ≤ localHeight H S r := by omega
    refine ⟨y, x, hy1, hy2, h3, h4, ?_⟩
    rw [cellVal_window H W S hS n hinv r hr hlh y x hy1 hy2 h3 h4,
        hwin r hr hlh y x (by omega) (by omega), ← hyeq]
    exact hne

lemma dChanged_eq (H W S : ℕ) (hS : 1 ≤ S) (n : ℕ) :
    dChanged H W S n = serialChanged H W seed4 n := by
  have h := dChanged_iff H W S hS n
  cases hd : dChanged H W S n <;> cases hs : serialChanged H W seed4 n <;>
    simp_all

lemma divW {W b : ℕ} (a : ℕ) (hb : b < W) : (a * W + b) / W = a := by
  rw [Nat.mul_comm, Nat.mul_add_div (by omega), Nat.div_eq_of_lt hb]
  omega

lemma modW {W b : ℕ} (a : ℕ) (hb : b < W) : (a * W + b) % W = b := by
  rw [Nat.mul_comm, Nat.mul_add_mod, Nat.mod_eq_of_lt hb]

/-- The flattened interior of a local sand buffer, as built into `sendbuf`
(`sendbuf[(y-1)*width + (x-1)] = sand[y*cols+x]`). -/
def sendBuf (W : ℕ) (b : Buf) : ℕ → ℕ :=
  fun q => b ((q / W + 1) * (W + 2) + (q % W + 1))

/-- The `MPI_Gatherv` assembly of the final image: each rank's
`localHeight * W` pixels are placed at offset `displs r = startRow r * W`
of the global result buffer, in ascending rank order. -/
def assembleResult (H W S : ℕ) (sands : Bufs) : ℕ → ℕ :=
  (List.range S).foldl
    (fun acc r => fun p =>
      if startRow H S r * W ≤ p ∧ p < (startRow H S r + localHeight H S r) * W then
        sendBuf W (sands r) (p - startRow H S r * W)
      else acc p)
    (fun _ => 0)

lemma assemble_fold_spec (H W S : ℕ) (sands : Bufs) :
    ∀ m, ∀ r, r < m → ∀ q, q < localHeight H S r * W →
      ((List.range m).foldl
        (fun acc r => fun p =>
          if startRow H S r * W ≤ p ∧ p < (startRow H S r + localHeight H S r) * W then
            sendBuf W (sands r) (p - startRow H S r * W)
          else acc p)
        (fun _ => 0)) (startRow H S r * W + q) = sendBuf W (sands r) q := by
  intro m
  induction m with
  | zero => intro r hr; omega
  | succ m ih =>
      intro r hr q hq
      rw [List.range_succ, List.foldl_append, List.foldl_cons, List.foldl_nil]
      by_cases hrm : r = m
      · subst hrm
        rw [if_pos ⟨Nat.le_add_right _ _, by
          have : (startRow H S r + localHeight H S r) * W
              = startRow H S r * W + localHeight H S r * W := by ring
          omega⟩]
        rw [Nat.add_sub_cancel_left]
      · have hrm' : r < m := by omega
        rw [if_neg ?_]
        · exact ih r hrm' q hq
        · intro hcon
          have h0 : (startRow H S r + localHeight H S r) * W
              = startRow H S r * W + localHeight H S r * W := by ring
          have h1 : (startRow H S r + localHeight H S r) * W = startRow H S (r + 1) * W := by
            rw [startRow_succ]
          have h2 : startRow H S (r + 1) ≤ startRow H S m := startRow_mono (by omega)
          have h3 : startRow H S (r + 1) * W ≤ startRow H S m * W :=
            Nat.mul_le_mul_right W h2
          omega

lemma assembleResult_eval (H W S : ℕ) (sands : Bufs) (r : ℕ) (hr : r < S)
    (q : ℕ) (hq : q < localHeight H S r * W) :
    assembleResult H W S sands (startRow H S r * W + q) = sendBuf W (sands r) q :=
  assemble_fold_spec H W S sands S r hr q hq

/-- The assembled distributed result equals the serial buffer, read
row-major over the interior, at every sweep index. -/
lemma assembled_eq_serial (H W S : ℕ) (hW : 1 ≤ W) (hS : 1 ≤ S) (n : ℕ) :
    ∀ p, p < H * W →
      assembleResult H W S (dState H W S n).1 p =
        (serialState H W seed4 n).1 ((p / W + 1) * (W + 2) + (p % W + 1)) := by
  intro p hp
  have hinv := simInv_all H W S hS n
  have hb : p % W < W := Nat.mod_lt _ (by omega)
  have hab : p = p / W * W + p % W := by
    have h := Nat.div_add_mod p W
    rw [Nat.mul_comm] at h
    omega
  obtain ⟨a, b, hpab, hbW⟩ : ∃ a b, p = a * W + b ∧ b < W := ⟨p / W, p % W, hab, hb⟩
  have hdiv : p / W = a := by rw [hpab, divW a hbW]
  have hmod : p % W = b := by rw [hpab, modW a hbW]
  have haH : a < H := by
    by_contra hcon
    have : H * W ≤ a * W := Nat.mul_le_mul_right W (by omega)
    omega
  obtain ⟨r, hr, y, hy1, hy2, hyeq⟩ := rows_cover H S hS (a + 1) (by omega) (by omega)
  obtain ⟨y', rfl⟩ : ∃ y', y = y' + 1 := ⟨y - 1, by omega⟩
  have ha : a = startRow H S r + y' := by omega
  have hpq : p = startRow H S r * W + (y' * W + b) := by
    rw [hpab, ha]; ring
  have hq : y' * W + b < localHeight H S r * W := by
    have h1 : (y' + 1) * W ≤ localHeight H S r * W := Nat.mul_le_mul_right W (by omega)
    have h2 : (y' + 1) * W = y' * W + W := by ring
    omega
  rw [hdiv, hmod]
  rw [show assembleResult H W S (dState H W S n).1 p
      = assembleResult H W S (dState H W S n).1 (startRow H S r * W + (y' * W + b)) from by
    rw [← hpq]]
  rw [assembleResult_eval H W S _ r hr _ hq]
  unfold sendBuf
  rw [divW y' hbW, modW y' hbW]
  have hA := hinv.1 r hr (y' + 1) (b + 1) (by omega) hy2 (by omega)
  rw [hA]
  rw [show startRow H S r + (y' + 1) = a + 1 from by omega]

/-- The per-rank relaxation of src/sandpile_mpi.c: its relaxation loop
performs no inter-process communication and reads and writes only the
rank-local full `height × width` buffers, so each rank runs the serial
recursion on the full grid; `rank` and `size` are obtained from
`MPI_Comm_rank` / `MPI_Comm_size` but never used by the loop. -/
def mpiLocalState (H W rank size : ℕ) : ℕ → Buf × Buf
  | 0 => (initBuf H W seed4, fun _ => 0)
  | n + 1 =>
      ((sweepBuf H W (mpiLocalState H W rank size n).1
          (mpiLocalState H W rank size n).2).1,
       (mpiLocalState H W rank size n).1)

lemma mpiLocalState_eq (H W rank size : ℕ) :
    ∀ n, mpiLocalState H W rank size n = serialState H W seed4 n := by
  intro n
  induction n with
  | zero => rfl
  | succ m ih =>
      show ((sweepBuf H W (mpiLocalState H W rank size m).1
          (mpiLocalState H W rank size m).2).1,
        (mpiLocalState H W rank size m).1) = _
      rw [ih]
      rfl

lemma sweepBuf_zero (w : ℕ) (sand next : Buf) :
    sweepBuf 0 w sand next = (next, false) := rfl

lemma any_filter_pos (l : List ℕ) (f : ℕ → Bool) (p : ℕ → Bool)
    (hf : ∀ r ∈ l, p r = false → f r = false) :
    l.any f = (l.filter p).any f := by
  induction l with
  | nil => rfl
  | cons a l ih =>
      have ih' := ih (fun r hr hpr => hf r (List.mem_cons_of_mem _ hr) hpr)
      cases hpa : p a
      · rw [List.any_cons, hf a (List.mem_cons_self _ _) hpa, Bool.false_or, ih',
          List.filter_cons, if_neg (by simp [hpa])]
      · rw [List.any_cons, List.filter_cons, if_pos (by simp [hpa]), List.any_cons, ih']

lemma exchange_frame (H S W : ℕ) (bufs : Bufs) (r i : ℕ)
    (hi : (localHeight H S r + 2) * (W + 2) ≤ i) :
    exchangeAll H S W bufs r i = bufs r i := by
  rw [exchangeAll_eq]
  unfold exSpec
  have h1 : (W + 2) ≤ (localHeight H S r + 2) * (W + 2) :=
    Nat.le_mul_of_pos_left (W + 2) (by omega)
  rw [if_neg (by omega), if_neg (by omega)]

/-- C1: Decomposition invariance.  For every grid with `height ≥ 1` and
`width ≥ 1`, every `workerCount ∈ {1, …, height}`, and the default seed
(every interior cell = 4), the distributed run's changed flags agree with
the serial run's at every sweep, both loops stop after the same number of
sweeps, and the assembled global result buffer, read row-major, is
cell-for-cell identical to the serial result buffer. -/
theorem claim_C1 (H W S : ℕ) (hH : 1 ≤ H) (hW : 1 ≤ W) (hS1 : 1 ≤ S) (hS2 : S ≤ H) :
    ∃ nstop : ℕ,
      serialChanged H W seed4 nstop = false ∧
      dChanged H W S nstop = false ∧
      (∀ m, m < nstop → serialChanged H W seed4 m = true ∧ dChanged H W S m = true) ∧
      (∀ p, p < H * W →
        assembleResult H W S (dState H W S (nstop + 1)).1 p =
          (serialState H W seed4 (nstop + 1)).1 ((p / W + 1) * (W + 2) + (p % W + 1))) := by
  obtain hP := serial_stops H W seed4
  refine ⟨Nat.find hP, Nat.find_spec hP, ?_, ?_, ?_⟩
  · rw [dChanged_eq H W S hS1]
    exact Nat.find_spec hP
  · intro m hm
    have hne := Nat.find_min hP hm
    have hser : serialChanged H W seed4 m = true := by
      cases hc : serialChanged H W seed4 m
      · exact absurd hc hne
      · rfl
    exact ⟨hser, by rw [dChanged_eq H W S hS1]; exact hser⟩
  · exact assembled_eq_serial H W S hW hS1 (Nat.find hP + 1)

theorem claim_C1_witness :
    (1 ≤ 2 ∧ 1 ≤ 1 ∧ 1 ≤ 2 ∧ 2 ≤ 2) ∧
      ∃ nstop : ℕ,
        serialChanged 2 1 seed4 nstop = false ∧
        dChanged 2 1 2 nstop = false ∧
        (∀ m, m < nstop → serialChanged 2 1 seed4 m = true ∧ dChanged 2 1 2 m = true) ∧
        (∀ p, p < 2 * 1 →
          assembleResult 2 1 2 (dState 2 1 2 (nstop + 1)).1 p =
            (serialState 2 1 seed4 (nstop + 1)).1 ((p / 1 + 1) * (1 + 2) + (p % 1 + 1))) :=
  ⟨⟨by decide, by decide, by decide, by decide⟩,
   claim_C1 2 1 2 (by decide) (by decide) (by decide) (by decide)⟩

/-- C2: Partition coverage.  For every `height ≥ 1` and `workerCount ≥ 1`,
the partitioner gives each rank `base + 1` rows if `rank < height mod
workerCount` and `base` rows otherwise (`base = height / workerCount`),
the row ranges are contiguous in rank order with no gaps or overlaps
(`startRow (r+1) = startRow r + localHeight r` from `startRow 0 = 0`), and
the row counts sum exactly to `height`. -/
theorem claim_C2 (H S : ℕ) (hH : 1 ≤ H) (hS : 1 ≤ S) :
    (∀ r, localHeight H S r = if r < H % S then H / S + 1 else H / S)
    ∧ startRow H S 0 = 0
    ∧ (∀ r, startRow H S (r + 1) = startRow H S r + localHeight H S r)
    ∧ startRow H S S = H := by
  refine ⟨?_, startRow_zero H S, startRow_succ H S, startRow_total H S hS⟩
  intro r
  unfold localHeight
  by_cases h : r < H % S
  · rw [if_pos h, if_pos h]
  · rw [if_neg h, if_neg h]
    omega

theorem claim_C2_witness :
    (1 ≤ 5 ∧ 1 ≤ 3) ∧
      ((∀ r, localHeight 5 3 r = if r < 5 % 3 then 5 / 3 + 1 else 5 / 3)
       ∧ startRow 5 3 0 = 0
       ∧ (∀ r, startRow 5 3 (r + 1) = startRow 5 3 r + localHeight 5 3 r)
       ∧ startRow 5 3 3 = 5) :=
  ⟨⟨by decide, by decide⟩, claim_C2 5 3 (by decide) (by decide)⟩

/-- C3: Cell update rule.  For any buffers and any interior coordinates
(`y ≥ 1`, `x ≥ 1`), `sync_compute_new_state` writes exactly
`v mod 4 + ⌊L/4⌋ + ⌊R/4⌋ + ⌊U/4⌋ + ⌊D/4⌋` (truncating division) into the
designated slot of the next buffer, and writes no other cell of either
buffer (the current buffer is never written at all, and every slot of the
next buffer other than the designated one is returned unchanged). -/
theorem claim_C3 (sand next : Buf) (cols y x : ℕ) (hy : 1 ≤ y) (hx : 1 ≤ x) :
    (sync_compute_new_state sand next cols y x).1 (y * cols + x) =
        sand (y * cols + x) % 4 + sand (y * cols + (x - 1)) / 4 +
        sand (y * cols + (x + 1)) / 4 + sand ((y - 1) * cols + x) / 4 +
        sand ((y + 1) * cols + x) / 4
    ∧ (∀ j, j ≠ y * cols + x → (sync_compute_new_state sand next cols y x).1 j = next j) := by
  constructor
  · show writeCell next (y * cols + x) (cellVal sand cols (y * cols + x)) (y * cols + x) = _
    rw [writeCell, if_pos rfl]
    obtain ⟨y', rfl⟩ : ∃ y', y = y' + 1 := ⟨y - 1, by omega⟩
    obtain ⟨x', rfl⟩ : ∃ x', x = x' + 1 := ⟨x - 1, by omega⟩
    rw [cellVal_at]
    rw [show y' + 1 - 1 = y' from by omega, show x' + 1 - 1 = x' from by omega,
        show x' + 1 + 1 = x' + 2 from by omega, show y' + 1 + 1 = y' + 2 from by omega]
  · intro j hj
    show writeCell next (y * cols + x) (cellVal sand cols (y * cols + x)) j = next j
    rw [writeCell, if_neg hj]

theorem claim_C3_witness :
    ((1:ℕ) ≤ 2 ∧ (1:ℕ) ≤ 2) ∧
      (((sync_compute_new_state (fun i => i) (fun _ => 0) 5 2 2).1 (2 * 5 + 2) =
          (fun i : ℕ => i) (2 * 5 + 2) % 4 + (fun i : ℕ => i) (2 * 5 + (2 - 1)) / 4 +
          (fun i : ℕ => i) (2 * 5 + (2 + 1)) / 4 + (fun i : ℕ => i) ((2 - 1) * 5 + 2) / 4 +
          (fun i : ℕ => i) ((2 + 1) * 5 + 2) / 4)
        ∧ (∀ j, j ≠ 2 * 5 + 2 →
            (sync_compute_new_state (fun i => i) (fun _ => 0) 5 2 2).1 j =
              (fun _ : ℕ => (0:ℕ)) j)) :=
  ⟨⟨by decide, by decide⟩,
   claim_C3 (fun i => i) (fun _ => 0) 5 2 2 (by decide) (by decide)⟩

/-- C4: Sink fixedness.  At every sweep boundary of a run — and, for the
serial variant, also after any prefix of the in-sweep cell loop — every
border/sink cell of both the current and the next buffer is 0: for the
serial and OpenMP variants this is every non-interior cell of the
`(height+2) × (width+2)` buffers; for the distributed variant the two sink
columns of every local row play that role, together with rank 0's top halo
row and the last rank's bottom halo row (the global borders). -/
theorem claim_C4 (H W S : ℕ) (s : ℕ → ℕ) (hS : 1 ≤ S) :
    (∀ n i, ¬ isInterior H W i →
        (serialState H W s n).1 i = 0 ∧ (serialState H W s n).2 i = 0)
    ∧ (∀ n i, ¬ isInterior H W i →
        (ompState H W s n).1 i = 0 ∧ (ompState H W s n).2 i = 0)
    ∧ (∀ n m i, ¬ isInterior H W i →
        ((((interiorCells H W).take m).foldl
          (sweepCell (serialState H W s n).1 (W + 2))
          ((serialState H W s n).2, false)).1) i = 0)
    ∧ (∀ n r, r < S → ∀ y x, y ≤ localHeight H S r + 1 → (x = 0 ∨ x = W + 1) →
        (dState H W S n).1 r (y * (W + 2) + x) = 0 ∧
          (dState H W S n).2 r (y * (W + 2) + x) = 0)
    ∧ (∀ n x, x < W + 2 →
        ((dState H W S n).1 0 x = 0 ∧ (dState H W S n).2 0 x = 0) ∧
        ((dState H W S n).1 (S - 1) ((localHeight H S (S - 1) + 1) * (W + 2) + x) = 0 ∧
          (dState H W S n).2 (S - 1) ((localHeight H S (S - 1) + 1) * (W + 2) + x) = 0)) := by
  refine ⟨serialState_border H W s, serialState_border H W s, ?_, ?_, ?_⟩
  · intro n m i hi
    have hno : ¬ ∃ p ∈ (interiorCells H W).take m, p.1 * (W + 2) + p.2 = i := by
      rintro ⟨p, hp, hpi⟩
      exact hi (exists_cell_iff.mp ⟨p, List.take_subset _ _ hp, hpi⟩)
    rw [foldl_sweepCell_fst, if_neg hno]
    exact (serialState_border H W s n i hi).2
  · intro n r hr y x hy hxs
    exact (simInv_all H W S hS n).2.1 r hr y x hy hxs
  · intro n x hx
    exact ⟨(simInv_all H W S hS n).2.2.1 x hx, (simInv_all H W S hS n).2.2.2.2 x hx⟩

theorem claim_C4_witness :
    (1 ≤ 2) ∧
      ((∀ n i, ¬ isInterior 1 1 i →
          (serialState 1 1 seed4 n).1 i = 0 ∧ (serialState 1 1 seed4 n).2 i = 0)
      ∧ (∀ n i, ¬ isInterior 1 1 i →
          (ompState 1 1 seed4 n).1 i = 0 ∧ (ompState 1 1 seed4 n).2 i = 0)
      ∧ (∀ n m i, ¬ isInterior 1 1 i →
          ((((interiorCells 1 1).take m).foldl
            (sweepCell (serialState 1 1 seed4 n).1 (1 + 2))
            ((serialState 1 1 seed4 n).2, false)).1) i = 0)
      ∧ (∀ n r, r < 2 → ∀ y x, y ≤ localHeight 1 2 r + 1 → (x = 0 ∨ x = 1 + 1) →
          (dState 1 1 2 n).1 r (y * (1 + 2) + x) = 0 ∧
            (dState 1 1 2 n).2 r (y * (1 + 2) + x) = 0)
      ∧ (∀ n x, x < 1 + 2 →
          ((dState 1 1 2 n).1 0 x = 0 ∧ (dState 1 1 2 n).2 0 x = 0) ∧
          ((dState 1 1 2 n).1 (2 - 1) ((localHeight 1 2 (2 - 1) + 1) * (1 + 2) + x) = 0 ∧
            (dState 1 1 2 n).2 (2 - 1) ((localHeight 1 2 (2 - 1) + 1) * (1 + 2) + x) = 0))) :=
  ⟨by decide, claim_C4 1 1 2 seed4 (by decide)⟩

/-- C5: Stability idempotence.  Whenever a sweep reports no change, one
further full sweep applied to the final buffer reproduces it pointwise (no
interior cell's value changes), and that further sweep's changed flag is
false as well: the stable state is an idempotent fixed point. -/
theorem claim_C5 (H W : ℕ) (s : ℕ → ℕ) (n : ℕ) (hch : serialChanged H W s n = false) :
    (∀ i, (serialState H W s (n + 2)).1 i = (serialState H W s (n + 1)).1 i) ∧
      serialChanged H W s (n + 1) = false := by
  refine ⟨serial_idempotent H W s n hch, ?_⟩
  unfold serialChanged
  rw [sweepBuf_snd_false]
  intro y x h1 h2 h3 h4
  have hidem := serial_idempotent H W s n hch (y * (W + 2) + x)
  have hcv : (serialState H W s (n + 2)).1 (y * (W + 2) + x)
      = cellVal (serialState H W s (n + 1)).1 (W + 2) (y * (W + 2) + x) := by
    rw [serialState_succ_fst, if_pos (isInterior_idx h1 h2 h3 h4)]
  rw [← hcv, hidem]

theorem claim_C5_witness :
    serialChanged 1 1 seed4 1 = false ∧
      ((∀ i, (serialState 1 1 seed4 3).1 i = (serialState 1 1 seed4 2).1 i) ∧
        serialChanged 1 1 seed4 2 = false) :=
  ⟨by decide, claim_C5 1 1 seed4 1 (by decide)⟩

/-- C6: Range invariant.  When a sweep reports no change (the relaxation
loop exits), every interior cell of the final stable buffer is at most 3,
i.e. lies in `{0,1,2,3}`, for every grid size and every non-negative seed
configuration. -/
theorem claim_C6 (H W : ℕ) (s : ℕ → ℕ) (n : ℕ) (hch : serialChanged H W s n = false) :
    ∀ i, isInterior H W i → (serialState H W s (n + 1)).1 i ≤ 3 :=
  serial_stable_range H W s n hch

theorem claim_C6_witness :
    serialChanged 1 1 seed4 1 = false ∧
      ∀ i, isInterior 1 1 i → (serialState 1 1 seed4 2).1 i ≤ 3 :=
  ⟨by decide, claim_C6 1 1 seed4 1 (by decide)⟩

/-- C7: End-to-end scenario B.  For `height = 2`, `width = 1` and seed 4 in
both interior cells (flat indices 4 and 7 of the 4×3 buffer): sweep 1 turns
both cells into 1 and reports a change, sweep 2 produces no change, so
exactly 2 sweeps execute and the final stable grid read row-major is
`[1, 1]`; the same `[1, 1]` assembled result, with the same two sweeps, is
obtained with one partition (`workerCount = 1`) and with two single-row
partitions with halo exchange (`workerCount = 2`). -/
theorem claim_C7 :
    (serialChanged 2 1 seed4 0 = true ∧ serialChanged 2 1 seed4 1 = false) ∧
    ((serialState 2 1 seed4 1).1 4 = 1 ∧ (serialState 2 1 seed4 1).1 7 = 1) ∧
    ((serialState 2 1 seed4 2).1 4 = 1 ∧ (serialState 2 1 seed4 2).1 7 = 1) ∧
    (dChanged 2 1 1 0 = true ∧ dChanged 2 1 1 1 = false ∧
      assembleResult 2 1 1 (dState 2 1 1 2).1 0 = 1 ∧
      assembleResult 2 1 1 (dState 2 1 1 2).1 1 = 1) ∧
    (dChanged 2 1 2 0 = true ∧ dChanged 2 1 2 1 = false ∧
      assembleResult 2 1 2 (dState 2 1 2 2).1 0 = 1 ∧
      assembleResult 2 1 2 (dState 2 1 2 2).1 1 = 1) := by
  refine ⟨⟨by decide, by decide⟩, ⟨by decide, by decide⟩, ⟨by decide, by decide⟩,
    ⟨by decide, by decide, by decide, by decide⟩,
    ⟨by decide, by decide, by decide, by decide⟩⟩

/-- C8: Termination.  For every `height`, `width` and every non-negative
seed configuration, the relaxation loop terminates: some sweep leaves every
interior cell unchanged, so its changed flag is false and the engine
reaches the stable state. -/
theorem claim_C8 (H W : ℕ) (s : ℕ → ℕ) : ∃ n, serialChanged H W s n = false :=
  serial_stops H W s

/-- C9: Zero-row workers.  When `workerCount > height`, a rank whose
partition has `rowCount = 0` skips its compute phase entirely (the sweep
returns the untouched next buffer and a false local flag, so it touches no
grid cell at all), contributes only a no-op to the OR consensus (the
global flag equals the OR over the positive-row ranks alone), its halo
exchange never writes outside its `(rowCount+2) × (width+2)` buffer, and
the whole distributed run still completes (the global flag eventually
becomes false). -/
theorem claim_C9 (H W S : ℕ) (hH : 1 ≤ H) (hW : 1 ≤ W) (hHS : H < S) :
    (∀ r, localHeight H S r = 0 → ∀ sand next : Buf,
        sweepBuf (localHeight H S r) W sand next = (next, false))
    ∧ (∀ n, dChanged H W S n =
        ((List.range S).filter (fun r => decide (0 < localHeight H S r))).any
          (fun r => (sweepBuf (localHeight H S r) W
            (exchangeAll H S W (dState H W S n).1 r) ((dState H W S n).2 r)).2))
    ∧ (∀ bufs : Bufs, ∀ r i, (localHeight H S r + 2) * (W + 2) ≤ i →
        exchangeAll H S W bufs r i = bufs r i)
    ∧ (∃ n, dChanged H W S n = false) := by
  refine ⟨?_, ?_, ?_, ?_⟩
  · intro r h0 sand next
    rw [h0]
    exact sweepBuf_zero W sand next
  · intro n
    rw [dChanged]
    apply any_filter_pos
    intro r hr hp
    have h0 : localHeight H S r = 0 := by
      have := of_decide_eq_false hp
      omega
    rw [h0, sweepBuf_zero]
  · intro bufs r i hi
    exact exchange_frame H S W bufs r i hi
  · obtain ⟨n, hn⟩ := serial_stops H W seed4
    exact ⟨n, by rw [dChanged_eq H W S (by omega) n]; exact hn⟩

theorem claim_C9_witness :
    (1 ≤ 1 ∧ 1 ≤ 1 ∧ 1 < 2) ∧
      ((∀ r, localHeight 1 2 r = 0 → ∀ sand next : Buf,
          sweepBuf (localHeight 1 2 r) 1 sand next = (next, false))
      ∧ (∀ n, dChanged 1 1 2 n =
          ((List.range 2).filter (fun r => decide (0 < localHeight 1 2 r))).any
            (fun r => (sweepBuf (localHeight 1 2 r) 1
              (exchangeAll 1 2 1 (dState 1 1 2 n).1 r) ((dState 1 1 2 n).2 r)).2))
      ∧ (∀ bufs : Bufs, ∀ r i, (localHeight 1 2 r + 2) * (1 + 2) ≤ i →
          exchangeAll 1 2 1 bufs r i = bufs r i)
      ∧ (∃ n, dChanged 1 1 2 n = false)) :=
  ⟨⟨by decide, by decide, by decide⟩,
   claim_C9 1 1 2 (by decide) (by decide) (by decide)⟩

/-- C10: The variant in src/sandpile_mpi.c performs no inter-process
communication in its relaxation loop and reads and writes only the
rank-local full-grid buffers, so its per-rank state is independent of the
rank and of the process count and coincides with the serial variant's
state — in particular the relaxation result equals the serial result for
the same dimensions and seed. -/
theorem claim_C10 (H W rank size n : ℕ) :
    mpiLocalState H W rank size n = serialState H W seed4 n :=
  mpiLocalState_eq H W rank size n
